import Mathlib

/-!
The csum_partial kernels: one's-complement Internet checksum kernels

A shallow embedding of `csum_partial.c` (the generic kernel `csum_partial`, the
helpers `load_unaligned_zeropad`, `add32_with_carry`, `from32to16`, and the
40-byte kernels `csum_partial40` .. `csum_partial47`) together with proofs of
its arithmetic properties.

Conventions of the embedding.

* Machine integers are natural numbers; every instruction reduces its result
  modulo `2 ^ w` for its operand width `w` and returns the carry it produces.
* Memory is a total map from addresses to bytes (`mem a % 256` is the byte at
  address `a`); addresses are natural numbers and pointer arithmetic does not
  wrap.
* `len` is a natural number: the source takes an `int` and a negative length is
  outside its contract.
* The x86 flags that matter are the carry flag (used by `add`, `adc`, `adcx`)
  and the overflow flag (used by `adox`); they are threaded explicitly as
  `0` or `1`.
* `load_unaligned_zeropad` has two paths, the plain 8-byte `mov` and the
  `.fixup` code entered when that `mov` faults. Which one runs is an input of
  the model (`fault`). A load at `addr` can only fault on a readable buffer if
  the buffer ends before the next multiple of 8 after `addr`; this is the
  condition `tailInWord`, assumed on the fault path only.
* One's-complement results are described by `ocNorm M t`, the representative
  of the exact sum `t` modulo `M = 2 ^ w - 1` that an end-around-carry chain
  produces.
-/

namespace Csum

/-! ## Instructions -/

/-- The instruction `add src, dst` at operand width `2 ^ w = W`:
the new destination and the carry flag. -/
def add_w (W src dst : Nat) : Nat × Nat :=
  ((dst + src) % W, (dst + src) / W)

/-- The instruction `adc src, dst` at operand width `W` with incoming carry `cf`:
the new destination and the carry flag. -/
def adc_w (W src dst cf : Nat) : Nat × Nat :=
  ((dst + src + cf) % W, (dst + src + cf) / W)

/-- Instruction `addq src, dst` (64 bit). -/
def addq (src dst : Nat) : Nat × Nat := add_w (2 ^ 64) src dst

/-- Instruction `adcq src, dst` (64 bit) with incoming carry flag. -/
def adcq (src dst cf : Nat) : Nat × Nat := adc_w (2 ^ 64) src dst cf

/-- Instruction `adcx src, dst` (64 bit): add with the carry flag, writing only
the carry flag. The arithmetic is that of `adcq`. -/
def adcx (src dst cf : Nat) : Nat × Nat := adc_w (2 ^ 64) src dst cf

/-- Instruction `adox src, dst` (64 bit): add with the overflow flag used as a
second carry, writing only the overflow flag. -/
def adox (src dst ovf : Nat) : Nat × Nat := adc_w (2 ^ 64) src dst ovf

/-- Instruction `addl src, dst` (32 bit). -/
def addl (src dst : Nat) : Nat × Nat := add_w (2 ^ 32) src dst

/-- Instruction `adcl src, dst` (32 bit) with incoming carry flag. -/
def adcl (src dst cf : Nat) : Nat × Nat := adc_w (2 ^ 32) src dst cf

/-- Instruction `addw src, dst` (16 bit). -/
def addw (src dst : Nat) : Nat × Nat := add_w (2 ^ 16) src dst

/-- Instruction `adcw src, dst` (16 bit) with incoming carry flag. -/
def adcw (src dst cf : Nat) : Nat × Nat := adc_w (2 ^ 16) src dst cf

/-! ## Memory -/

/-- The byte stored at address `a`. -/
def byteAt (mem : Nat → Nat) (a : Nat) : Nat := mem a % 256

/-- A little-endian 4-byte load (`movl`, or a 32-bit memory operand). -/
def load32 (mem : Nat → Nat) (a : Nat) : Nat :=
  byteAt mem a + byteAt mem (a + 1) * 2 ^ 8 + byteAt mem (a + 2) * 2 ^ 16
    + byteAt mem (a + 3) * 2 ^ 24

/-- A little-endian 8-byte load (`movq`, or a 64-bit memory operand). -/
def load64 (mem : Nat → Nat) (a : Nat) : Nat :=
  byteAt mem a + byteAt mem (a + 1) * 2 ^ 8 + byteAt mem (a + 2) * 2 ^ 16
    + byteAt mem (a + 3) * 2 ^ 24 + byteAt mem (a + 4) * 2 ^ 32
    + byteAt mem (a + 5) * 2 ^ 40 + byteAt mem (a + 6) * 2 ^ 48
    + byteAt mem (a + 7) * 2 ^ 56

/-! ## Helpers of the source -/

/-- The `.fixup` path of `load_unaligned_zeropad`: `lea`/`and $-8` round the
address down to a multiple of 8, the aligned word is loaded, and it is shifted
right by `(addr & 7) << 3` bits. The count is computed in the 32-bit `%ecx`; it
is at most 56, so `shr %cl` uses it as it is. -/
def load_unaligned_zeropad_fixup (mem : Nat → Nat) (addr : Nat) : Nat :=
  let aligned := addr - addr % 8
  let cl := (((addr % 2 ^ 32) &&& 7) <<< 3) % 2 ^ 32
  load64 mem aligned >>> cl

/-- Source function `load_unaligned_zeropad`. The `mov` at label `1` loads the
8 bytes at `addr`; when that access faults (`fault = true`) the `.fixup` code
at label `3` produces the value instead. -/
def load_unaligned_zeropad (fault : Bool) (mem : Nat → Nat) (addr : Nat) : Nat :=
  if fault then load_unaligned_zeropad_fixup mem addr else load64 mem addr

/-- Source function `add32_with_carry`: `addl b, a; adcl $0, a` on
`unsigned` arguments. -/
def add32_with_carry (a b : Nat) : Nat :=
  let r0 := addl (b % 2 ^ 32) (a % 2 ^ 32)
  let r1 := adcl 0 r0.1 r0.2
  r1.1

/-- Source function `from32to16`: `b = a >> 16; addw a, b; adcw $0, b`,
where `addw` uses the low 16 bits of `a`. -/
def from32to16 (a : Nat) : Nat :=
  let b := ((a % 2 ^ 32) >>> 16) % 2 ^ 16
  let r0 := addw (a % 2 ^ 16) b
  let r1 := adcw 0 r0.1 r0.2
  r1.1

/-! ## The asm blocks of the generic kernel -/

/-- The 64-byte block: `addq 0*8(src),res; adcq 1*8(src),res; ...;
adcq 7*8(src),res; adcq $0,res`. -/
def block64 (mem : Nat → Nat) (src res : Nat) : Nat :=
  let r0 := addq (load64 mem (src + 0 * 8)) res
  let r1 := adcq (load64 mem (src + 1 * 8)) r0.1 r0.2
  let r2 := adcq (load64 mem (src + 2 * 8)) r1.1 r1.2
  let r3 := adcq (load64 mem (src + 3 * 8)) r2.1 r2.2
  let r4 := adcq (load64 mem (src + 4 * 8)) r3.1 r3.2
  let r5 := adcq (load64 mem (src + 5 * 8)) r4.1 r4.2
  let r6 := adcq (load64 mem (src + 6 * 8)) r5.1 r5.2
  let r7 := adcq (load64 mem (src + 7 * 8)) r6.1 r6.2
  let r8 := adcq 0 r7.1 r7.2
  r8.1

/-- The 32-byte block: `addq 0*8(src),res; adcq 1*8 .. 3*8(src),res;
adcq $0,res`. -/
def block32 (mem : Nat → Nat) (src res : Nat) : Nat :=
  let r0 := addq (load64 mem (src + 0 * 8)) res
  let r1 := adcq (load64 mem (src + 1 * 8)) r0.1 r0.2
  let r2 := adcq (load64 mem (src + 2 * 8)) r1.1 r1.2
  let r3 := adcq (load64 mem (src + 3 * 8)) r2.1 r2.2
  let r4 := adcq 0 r3.1 r3.2
  r4.1

/-- The 16-byte block: `addq 0*8(src),res; adcq 1*8(src),res; adcq $0,res`. -/
def block16 (mem : Nat → Nat) (src res : Nat) : Nat :=
  let r0 := addq (load64 mem (src + 0 * 8)) res
  let r1 := adcq (load64 mem (src + 1 * 8)) r0.1 r0.2
  let r2 := adcq 0 r1.1 r1.2
  r2.1

/-- The 8-byte block: `addq 0*8(src),res; adcq $0,res`. -/
def block8 (mem : Nat → Nat) (src res : Nat) : Nat :=
  let r0 := addq (load64 mem (src + 0 * 8)) res
  let r1 := adcq 0 r0.1 r0.2
  r1.1

/-- The tail add: `addq trail,res; adcq $0,res`. -/
def addTrail (trail res : Nat) : Nat :=
  let r0 := addq trail res
  let r1 := adcq 0 r0.1 r0.2
  r1.1

/-- The masked tail word of the `if (len & 7)` branch:
`shift = (8 - (len & 7)) * 8` as an `unsigned int` and
`trail = (load_unaligned_zeropad(buff) << shift) >> shift` in 64 bits. -/
def trailWord (fault : Bool) (mem : Nat → Nat) (buff len : Nat) : Nat :=
  let shift := ((8 - (len &&& 7)) * 8) % 2 ^ 32
  ((load_unaligned_zeropad fault mem buff <<< shift) % 2 ^ 64) >>> shift

/-- The loop `while (len >= 64) { <64-byte block>; buff += 64; len -= 64; }`,
returning the final `(buff, len, temp64)`. -/
def while64 (mem : Nat → Nat) (buff len temp64 : Nat) : Nat × Nat × Nat :=
  if 64 ≤ len then
    while64 mem (buff + 64) (len - 64) (block64 mem buff temp64)
  else
    (buff, len, temp64)
termination_by len
decreasing_by omega

/-- The part shared by `csum_partial`, `__csum_partial` and `csum_partial40`:
the 64-byte loop, the `len & 32`, `len & 16`, `len & 8` blocks and the
`len & 7` tail. Returns the final `temp64`. -/
def sumBody (fault : Bool) (mem : Nat → Nat) (buff len temp64 : Nat) : Nat :=
  let s0 := while64 mem buff len temp64
  let buff := s0.1
  let len := s0.2.1
  let temp64 := s0.2.2
  let s1 := if len &&& 32 ≠ 0 then (buff + 32, block32 mem buff temp64) else (buff, temp64)
  let s2 := if len &&& 16 ≠ 0 then (s1.1 + 16, block16 mem s1.1 s1.2) else s1
  let s3 := if len &&& 8 ≠ 0 then (s2.1 + 8, block8 mem s2.1 s2.2) else s2
  if len &&& 7 ≠ 0 then addTrail (trailWord fault mem s3.1 len) s3.2 else s3.2

/-- Source function `csum_partial` (and its verbatim copy `__csum_partial`).
`fault` tells whether the 8-byte tail load takes the fault path of
`load_unaligned_zeropad`. -/
def csum_partial (fault : Bool) (mem : Nat → Nat) (buff len sum : Nat) : Nat :=
  let sum := sum % 2 ^ 32
  let temp64 := sum
  let odd := 1 &&& buff
  if odd ≠ 0 ∧ len = 0 then sum
  else
    let s := if odd ≠ 0 then
        ((temp64 + (byteAt mem buff <<< 8)) % 2 ^ 64, len - 1, buff + 1)
      else (temp64, len, buff)
    let temp64 := sumBody fault mem s.2.2 s.2.1 s.1
    let result := add32_with_carry (temp64 >>> 32) (temp64 &&& 0xffffffff)
    if odd ≠ 0 then
      let result := from32to16 result
      ((result >>> 8) &&& 0xff) ||| ((result &&& 0xff) <<< 8)
    else result

/-! ## The 40-byte kernels -/

/-- Source function `csum_partial40` ("Linux kernel minus alignment"): the body
of `csum_partial` without the odd-address handling. -/
def csum_partial40 (fault : Bool) (mem : Nat → Nat) (buff len sum : Nat) : Nat :=
  let temp64 := sum % 2 ^ 32
  let temp64 := sumBody fault mem buff len temp64
  add32_with_carry (temp64 >>> 32) (temp64 &&& 0xffffffff)

/-- Source function `csum_partial41`: one `addq`/`adcq` chain over the five
words, closed by `adcq $0`. The `len` argument is not used. -/
def csum_partial41 (mem : Nat → Nat) (buff _len sum : Nat) : Nat :=
  let temp64 := sum % 2 ^ 32
  let r0 := addq (load64 mem (buff + 0 * 8)) temp64
  let r1 := adcq (load64 mem (buff + 1 * 8)) r0.1 r0.2
  let r2 := adcq (load64 mem (buff + 2 * 8)) r1.1 r1.2
  let r3 := adcq (load64 mem (buff + 3 * 8)) r2.1 r2.2
  let r4 := adcq (load64 mem (buff + 4 * 8)) r3.1 r3.2
  let r5 := adcq 0 r4.1 r4.2
  let temp64 := r5.1
  add32_with_carry (temp64 >>> 32) (temp64 &&& 0xffffffff)

/-- Source function `csum_partial42`: `xorq %r9,%r9` zeroes `r9` and clears
both flags; words 0..2 are summed in `rcx` on the carry flag (`adcx`), then
`sum`, words 3, 4 and `rcx` are summed in `res` on the overflow flag
(`adox`). -/
def csum_partial42 (mem : Nat → Nat) (buff _len sum : Nat) : Nat :=
  let temp64 := sum % 2 ^ 32
  let r9 := 0
  let cf := 0
  let ovf := 0
  let rcx := load64 mem (buff + 0 * 8)
  let c1 := adcx (load64 mem (buff + 1 * 8)) rcx cf
  let c2 := adcx (load64 mem (buff + 2 * 8)) c1.1 c1.2
  let c3 := adcx r9 c2.1 c2.2
  let o1 := adox (load64 mem (buff + 3 * 8)) temp64 ovf
  let o2 := adox (load64 mem (buff + 4 * 8)) o1.1 o1.2
  let o3 := adox c3.1 o2.1 o2.2
  let o4 := adox r9 o3.1 o3.2
  let temp64 := o4.1
  add32_with_carry (temp64 >>> 32) (temp64 &&& 0xffffffff)

/-- Source function `csum_partial43`: as `csum_partial42` with words 0..3 on
the carry-flag chain and `sum`, word 4 and `rcx` on the overflow-flag chain. -/
def csum_partial43 (mem : Nat → Nat) (buff _len sum : Nat) : Nat :=
  let temp64 := sum % 2 ^ 32
  let r9 := 0
  let cf := 0
  let ovf := 0
  let rcx := load64 mem (buff + 0 * 8)
  let c1 := adcx (load64 mem (buff + 1 * 8)) rcx cf
  let c2 := adcx (load64 mem (buff + 2 * 8)) c1.1 c1.2
  let c3 := adcx (load64 mem (buff + 3 * 8)) c2.1 c2.2
  let c4 := adcx r9 c3.1 c3.2
  let o1 := adox (load64 mem (buff + 4 * 8)) temp64 ovf
  let o2 := adox c4.1 o1.1 o1.2
  let o3 := adox r9 o2.1 o2.2
  let temp64 := o3.1
  add32_with_carry (temp64 >>> 32) (temp64 &&& 0xffffffff)

/-- Source function `csum_partial44`: words 0..2 are summed in `rcx`
(`movq`, `addq`, `adcq`, `adcq $0`), then words 3, 4 and `rcx` are added to
`res` in a second chain. -/
def csum_partial44 (mem : Nat → Nat) (buff _len sum : Nat) : Nat :=
  let temp64 := sum % 2 ^ 32
  let rcx := load64 mem (buff + 0 * 8)
  let c1 := addq (load64 mem (buff + 1 * 8)) rcx
  let c2 := adcq (load64 mem (buff + 2 * 8)) c1.1 c1.2
  let c3 := adcq 0 c2.1 c2.2
  let r1 := addq (load64 mem (buff + 3 * 8)) temp64
  let r2 := adcq (load64 mem (buff + 4 * 8)) r1.1 r1.2
  let r3 := adcq c3.1 r2.1 r2.2
  let r4 := adcq 0 r3.1 r3.2
  let temp64 := r4.1
  add32_with_carry (temp64 >>> 32) (temp64 &&& 0xffffffff)

/-- Source function `csum_partial45`: words 0..3 are summed in `rcx`, closed by
`adcq %r9` with `r9 = 0`, then word 4 and `rcx` are added to `res`. -/
def csum_partial45 (mem : Nat → Nat) (buff _len sum : Nat) : Nat :=
  let temp64 := sum % 2 ^ 32
  let r9 := 0
  let rcx := load64 mem (buff + 0 * 8)
  let c1 := addq (load64 mem (buff + 1 * 8)) rcx
  let c2 := adcq (load64 mem (buff + 2 * 8)) c1.1 c1.2
  let c3 := adcq (load64 mem (buff + 3 * 8)) c2.1 c2.2
  let c4 := adcq r9 c3.1 c3.2
  let r1 := addq (load64 mem (buff + 4 * 8)) temp64
  let r2 := adcq c4.1 r1.1 r1.2
  let r3 := adcq r9 r2.1 r2.2
  let temp64 := r3.1
  add32_with_carry (temp64 >>> 32) (temp64 &&& 0xffffffff)

/-- Source function `csum_partial46` ("Assume zero"): `temp64` is an
output-only operand of the asm; `res` is loaded from word 3 by `movq`, so the
incoming `sum` does not reach the result. -/
def csum_partial46 (mem : Nat → Nat) (buff _len _sum : Nat) : Nat :=
  let rcx := load64 mem (buff + 0 * 8)
  let c1 := addq (load64 mem (buff + 1 * 8)) rcx
  let c2 := adcq (load64 mem (buff + 2 * 8)) c1.1 c1.2
  let c3 := adcq 0 c2.1 c2.2
  let res := load64 mem (buff + 3 * 8)
  let r1 := addq (load64 mem (buff + 4 * 8)) res
  let r2 := adcq c3.1 r1.1 r1.2
  let r3 := adcq 0 r2.1 r2.2
  let temp64 := r3.1
  add32_with_carry (temp64 >>> 32) (temp64 &&& 0xffffffff)

/-- Source function `csum_partial47` ("32 bit train"): three 32-bit chains in
`r9d`, `r11d`, `r10d`, each closed by `adcl %ecx` with `ecx = 0`, merged with
the 32-bit word 9 and `sum` in `edx`. -/
def csum_partial47 (mem : Nat → Nat) (buff _len sum : Nat) : Nat :=
  let temp64 := sum % 2 ^ 32
  let ecx := 0
  let r9d := load32 mem (buff + 0 * 4)
  let r11d := load32 mem (buff + 1 * 4)
  let r10d := load32 mem (buff + 2 * 4)
  let a1 := addl (load32 mem (buff + 4 * 4)) r9d
  let a2 := adcl (load32 mem (buff + 5 * 4)) a1.1 a1.2
  let a3 := adcl ecx a2.1 a2.2
  let b1 := addl (load32 mem (buff + 6 * 4)) r11d
  let b2 := adcl (load32 mem (buff + 7 * 4)) b1.1 b1.2
  let b3 := adcl ecx b2.1 b2.2
  let c1 := addl (load32 mem (buff + 8 * 4)) r10d
  let c2 := adcl (load32 mem (buff + 3 * 4)) c1.1 c1.2
  let c3 := adcl ecx c2.1 c2.2
  let d1 := addl (load32 mem (buff + 9 * 4)) temp64
  let d2 := adcl a3.1 d1.1 d1.2
  let d3 := adcl b3.1 d2.1 d2.2
  let d4 := adcl c3.1 d3.1 d3.2
  let d5 := adcl ecx d4.1 d4.2
  d5.1

/-! ## Specification-level notions -/

/-- The one's-complement normal form of a natural number `t` modulo `M`:
`0` for `t = 0`, and otherwise the representative of `t` in `1 .. M`.
With `M = 2 ^ w - 1` this is the `w`-bit sum with end-around carry. -/
def ocNorm (M t : Nat) : Nat :=
  if t = 0 then 0 else (t - 1) % M + 1

/-- The sum of the first `n` bytes at `buff`, read as little-endian words of
`p` bytes: byte `i` has weight `256 ^ (i % p)`. -/
def byteSum (p : Nat) (mem : Nat → Nat) (buff : Nat) : Nat → Nat
  | 0 => 0
  | n + 1 => byteSum p mem buff n + byteAt mem (buff + n) * 256 ^ (n % p)

/-- The state of a carry chain at operand width `W`: the register `v` and the
carry flag `c` after adding up operands whose exact sum is `t`. The pair
`(W - 1, 1)` never occurs, which is why the closing `adc $0` cannot carry. -/
def Carry (W v c t : Nat) : Prop :=
  v < W ∧ c ≤ 1 ∧ ¬(v = W - 1 ∧ c = 1) ∧ (v + c) % (W - 1) = t % (W - 1)
    ∧ (v + c = 0 ↔ t = 0)

instance (W v c t : Nat) : Decidable (Carry W v c t) := by
  unfold Carry
  exact inferInstance

/-- The 1..7 tail bytes of a buffer `[buff, buff + len)` lie inside one aligned
8-byte word. This holds whenever the 8-byte tail load faults on a buffer whose
own bytes are readable, page boundaries being multiples of 8. -/
def tailInWord (buff len : Nat) : Prop :=
  buff % 8 + len % 8 ≤ 8

instance (buff len : Nat) : Decidable (tailInWord buff len) := by
  unfold tailInWord
  exact inferInstance

/-- The readability condition of a call `csum_partial(buff, len, sum)`: when the
tail load faults, the tail of the range summed by the body (which starts one
byte later when `buff` is odd) lies inside one aligned word. -/
def tailReadable (fault : Bool) (buff len : Nat) : Prop :=
  fault = true → tailInWord (buff + buff % 2) (len - buff % 2)

instance (fault : Bool) (buff len : Nat) : Decidable (tailReadable fault buff len) := by
  unfold tailReadable
  exact inferInstance

/-- The instructions `adc w, res` executed for the operands `ws` in order at
operand width `W`, starting from the register and carry flag `st`. -/
def adcChain (W : Nat) (ws : List Nat) (st : Nat × Nat) : Nat × Nat :=
  ws.foldl (fun s w => adc_w W w s.1 s.2) st

/-- The asm pattern `add w0, res; adc w1, res; ...; adc $0, res` on the
accumulator `acc`: the final register and the carry flag left by the closing
`adc $0`. Every asm block of the kernels is an instance of it. -/
def carryChain (W acc w0 : Nat) (ws : List Nat) : Nat × Nat :=
  let st := adcChain W ws (add_w W w0 acc)
  adc_w W 0 st.1 st.2

/-- The textbook 20-byte IPv4 header of the known-vector check, with its
checksum field (bytes 10 and 11) zeroed. -/
def ipv4_header : List Nat :=
  [0x45, 0x00, 0x00, 0x73, 0x00, 0x00, 0x40, 0x00, 0x40, 0x11,
   0x00, 0x00, 0xc0, 0xa8, 0x00, 0x01, 0xc0, 0xa8, 0x00, 0xc7]

/-- A memory holding the bytes `l` from address `base` on and `0` elsewhere. -/
def bytesAt (base : Nat) (l : List Nat) : Nat → Nat :=
  fun a => if base ≤ a then l.getD (a - base) 0 else 0

/-! ## Bit operations as arithmetic -/

theorem and_bit (n i : Nat) : n &&& 2 ^ i = n / 2 ^ i % 2 * 2 ^ i := by
  rw [Nat.and_two_pow, Nat.toNat_testBit]

theorem and_32 (n : Nat) : n &&& 32 = n / 32 % 2 * 32 := and_bit n 5

theorem and_16 (n : Nat) : n &&& 16 = n / 16 % 2 * 16 := and_bit n 4

theorem and_8 (n : Nat) : n &&& 8 = n / 8 % 2 * 8 := and_bit n 3

theorem and_7 (n : Nat) : n &&& 7 = n % 8 := Nat.and_pow_two_sub_one_eq_mod n 3

theorem and_ff (n : Nat) : n &&& 0xff = n % 256 := Nat.and_pow_two_sub_one_eq_mod n 8

theorem and_ffffffff (n : Nat) : n &&& 0xffffffff = n % 2 ^ 32 :=
  Nat.and_pow_two_sub_one_eq_mod n 32

/-! ## One's-complement normal form -/

theorem ocNorm_zero (M : Nat) : ocNorm M 0 = 0 := by simp [ocNorm]

theorem ocNorm_eq_zero_iff (M t : Nat) : ocNorm M t = 0 ↔ t = 0 := by
  unfold ocNorm
  split <;> simp_all

theorem ocNorm_le (M t : Nat) (hM : 0 < M) : ocNorm M t ≤ M := by
  unfold ocNorm
  split
  · omega
  · have := Nat.mod_lt (t - 1) hM
    omega

theorem ocNorm_mod (M t : Nat) : ocNorm M t % M = t % M := by
  unfold ocNorm
  split
  · simp_all
  · rename_i h
    rw [Nat.mod_add_mod]
    congr 1
    omega

/-- A value in `0 .. M` congruent to `t` and zero exactly when `t` is zero is
the normal form of `t`. -/
theorem ocNorm_unique (M r t : Nat) (hr : r ≤ M) (hmod : r % M = t % M)
    (hz : r = 0 ↔ t = 0) : r = ocNorm M t := by
  unfold ocNorm
  split
  · rename_i h
    exact hz.2 h
  · rename_i h
    have hr0 : r ≠ 0 := fun h0 => h (hz.1 h0)
    have h1 : (r - 1 + 1) % M = (t - 1 + 1) % M := by
      rw [Nat.sub_add_cancel (Nat.pos_of_ne_zero hr0), Nat.sub_add_cancel (Nat.pos_of_ne_zero h)]
      exact hmod
    have h2 : (r - 1) % M = (t - 1) % M := Nat.ModEq.add_right_cancel' 1 h1
    have h3 : (r - 1) % M = r - 1 := Nat.mod_eq_of_lt (by omega)
    omega

theorem ocNorm_congr (M a b : Nat) (hM : 0 < M) (hmod : a % M = b % M) (hz : a = 0 ↔ b = 0) :
    ocNorm M a = ocNorm M b :=
  ocNorm_unique M (ocNorm M a) b (ocNorm_le M a hM) ((ocNorm_mod M a).trans hmod)
    ((ocNorm_eq_zero_iff M a).trans hz)

theorem ocNorm_of_le (M t : Nat) (h : t ≤ M) : ocNorm M t = t :=
  (ocNorm_unique M t t h rfl Iff.rfl).symm

theorem ocNorm_add_left (M a b : Nat) (hM : 0 < M) :
    ocNorm M (ocNorm M a + b) = ocNorm M (a + b) := by
  apply ocNorm_congr M _ _ hM
  · rw [Nat.add_mod, ocNorm_mod, ← Nat.add_mod]
  · have := ocNorm_eq_zero_iff M a
    omega

/-! ## Carry chains -/

theorem carry_init (W v : Nat) (hv : v < W) : Carry W v 0 v := by
  unfold Carry
  refine ⟨hv, by omega, by omega, rfl, by simp⟩

theorem carry_adc (W v c t w : Nat) (hW : W = 2 ^ 16 ∨ W = 2 ^ 32 ∨ W = 2 ^ 64)
    (h : Carry W v c t) (hw : w < W) :
    Carry W (adc_w W w v c).1 (adc_w W w v c).2 (t + w) := by
  unfold Carry adc_w at *
  rcases hW with rfl | rfl | rfl <;> simp only [] <;> omega

theorem carry_add (W a b : Nat) (hW : W = 2 ^ 16 ∨ W = 2 ^ 32 ∨ W = 2 ^ 64)
    (ha : a < W) (hb : b < W) :
    Carry W (add_w W b a).1 (add_w W b a).2 (a + b) :=
  carry_adc W a 0 a b hW (carry_init W a ha) hb

theorem carry_close (W v c t : Nat) (hW : W = 2 ^ 16 ∨ W = 2 ^ 32 ∨ W = 2 ^ 64)
    (h : Carry W v c t) : (adc_w W 0 v c).1 = ocNorm (W - 1) t ∧ (adc_w W 0 v c).2 = 0 := by
  have h2 := carry_adc W v c t 0 hW h (by rcases hW with rfl | rfl | rfl <;> omega)
  unfold Carry adc_w at *
  constructor
  · apply ocNorm_unique
    · rcases hW with rfl | rfl | rfl <;> simp only [] <;> omega
    · rcases hW with rfl | rfl | rfl <;> simp only [] <;> omega
    · rcases hW with rfl | rfl | rfl <;> simp only [] <;> omega
  · rcases hW with rfl | rfl | rfl <;> simp only [] <;> omega

/-! ## The fold helpers -/

theorem add32_with_carry_eq (a b : Nat) :
    add32_with_carry a b = ocNorm (2 ^ 32 - 1) (a % 2 ^ 32 + b % 2 ^ 32) := by
  unfold add32_with_carry addl adcl
  exact (carry_close _ _ _ _ (Or.inr (Or.inl rfl))
    (carry_add _ _ _ (Or.inr (Or.inl rfl)) (Nat.mod_lt _ (by norm_num))
      (Nat.mod_lt _ (by norm_num)))).1

theorem from32to16_eq (a : Nat) :
    from32to16 a = ocNorm (2 ^ 16 - 1) (a % 2 ^ 32 / 2 ^ 16 + a % 2 ^ 16) := by
  unfold from32to16 addw adcw
  rw [Nat.shiftRight_eq_div_pow]
  have h : a % 2 ^ 32 / 2 ^ 16 % 2 ^ 16 = a % 2 ^ 32 / 2 ^ 16 := by omega
  simp only [h]
  exact (carry_close _ _ _ _ (Or.inl rfl)
    (carry_add _ _ _ (Or.inl rfl) (by omega) (Nat.mod_lt _ (by norm_num)))).1

/-- Folding a 64-bit accumulator with `add32_with_carry` gives its normal form
modulo `2 ^ 32 - 1`. -/
theorem fold64 (T : Nat) (hT : T < 2 ^ 64) :
    add32_with_carry (T >>> 32) (T &&& 0xffffffff) = ocNorm (2 ^ 32 - 1) T := by
  rw [add32_with_carry_eq, Nat.shiftRight_eq_div_pow, and_ffffffff]
  simp only [Nat.reducePow, Nat.reduceSub] at *
  have h1 : T / 4294967296 % 4294967296 = T / 4294967296 := by omega
  have h2 : T % 4294967296 % 4294967296 = T % 4294967296 := by omega
  have e : T = (T / 4294967296 + T % 4294967296) + 4294967295 * (T / 4294967296) := by omega
  rw [h1, h2]
  apply ocNorm_congr _ _ _ (by norm_num)
  · conv_rhs => rw [e]
    rw [Nat.add_mul_mod_self_left]
  · omega

/-- `from32to16` gives the normal form modulo `65535` of a 32-bit value. -/
theorem from32to16_norm (a : Nat) (ha : a < 2 ^ 32) :
    from32to16 a = ocNorm 65535 a := by
  rw [from32to16_eq]
  simp only [Nat.reducePow, Nat.reduceSub] at *
  have h1 : a % 4294967296 = a := by omega
  have e : a = (a / 65536 + a % 65536) + 65535 * (a / 65536) := by omega
  rw [h1]
  apply ocNorm_congr _ _ _ (by norm_num)
  · conv_rhs => rw [e]
    rw [Nat.add_mul_mod_self_left]
  · omega

theorem ocNorm32_ocNorm64 (t : Nat) :
    ocNorm (2 ^ 32 - 1) (ocNorm (2 ^ 64 - 1) t) = ocNorm (2 ^ 32 - 1) t := by
  apply ocNorm_congr _ _ _ (by norm_num)
  · have h := ocNorm_mod (2 ^ 64 - 1) t
    omega
  · exact ocNorm_eq_zero_iff _ _

theorem ocNorm16_ocNorm32 (t : Nat) :
    ocNorm 65535 (ocNorm (2 ^ 32 - 1) t) = ocNorm 65535 t := by
  apply ocNorm_congr _ _ _ (by norm_num)
  · have h := ocNorm_mod (2 ^ 32 - 1) t
    omega
  · exact ocNorm_eq_zero_iff _ _

/-! ## Loads and byte sums -/

theorem byteAt_lt (mem : Nat → Nat) (a : Nat) : byteAt mem a < 256 :=
  Nat.mod_lt _ (by norm_num)

theorem load64_lt (mem : Nat → Nat) (a : Nat) : load64 mem a < 2 ^ 64 := by
  unfold load64
  have h0 := byteAt_lt mem a
  have h1 := byteAt_lt mem (a + 1)
  have h2 := byteAt_lt mem (a + 2)
  have h3 := byteAt_lt mem (a + 3)
  have h4 := byteAt_lt mem (a + 4)
  have h5 := byteAt_lt mem (a + 5)
  have h6 := byteAt_lt mem (a + 6)
  have h7 := byteAt_lt mem (a + 7)
  omega

theorem load32_lt (mem : Nat → Nat) (a : Nat) : load32 mem a < 2 ^ 32 := by
  unfold load32
  have h0 := byteAt_lt mem a
  have h1 := byteAt_lt mem (a + 1)
  have h2 := byteAt_lt mem (a + 2)
  have h3 := byteAt_lt mem (a + 3)
  omega

theorem byteSum_split (p : Nat) (mem : Nat → Nat) (buff m n : Nat) (hm : m % p = 0) :
    byteSum p mem buff (m + n) = byteSum p mem buff m + byteSum p mem (buff + m) n := by
  induction n with
  | zero => simp [byteSum]
  | succ n ih =>
    have h : (m + n) % p = n % p := by rw [Nat.add_mod, hm, Nat.zero_add, Nat.mod_mod]
    rw [← Nat.add_assoc, byteSum, byteSum, ih, h, Nat.add_assoc buff m n, Nat.add_assoc]

theorem load64_eq_byteSum (mem : Nat → Nat) (a : Nat) : load64 mem a = byteSum 8 mem a 8 := by
  simp [load64, byteSum]

theorem load32_eq_byteSum (mem : Nat → Nat) (a : Nat) : load32 mem a = byteSum 4 mem a 4 := by
  simp [load32, byteSum]

/-! ## The asm blocks as one's-complement sums -/

theorem byteSum_add8 (mem : Nat → Nat) (buff n : Nat) (hn : n % 8 = 0) :
    byteSum 8 mem buff (n + 8) = byteSum 8 mem buff n + load64 mem (buff + n) := by
  rw [byteSum_split _ _ _ _ _ hn, load64_eq_byteSum]

theorem width64 : (2 : Nat) ^ 64 = 2 ^ 16 ∨ (2 : Nat) ^ 64 = 2 ^ 32 ∨ (2 : Nat) ^ 64 = 2 ^ 64 :=
  Or.inr (Or.inr rfl)

theorem width32 : (2 : Nat) ^ 32 = 2 ^ 16 ∨ (2 : Nat) ^ 32 = 2 ^ 32 ∨ (2 : Nat) ^ 32 = 2 ^ 64 :=
  Or.inr (Or.inl rfl)

theorem block8_eq (mem : Nat → Nat) (src res : Nat) (h : res < 2 ^ 64) :
    block8 mem src res = ocNorm (2 ^ 64 - 1) (res + byteSum 8 mem src 8) := by
  have e : byteSum 8 mem src 8 = load64 mem (src + 0 * 8) := by
    rw [load64_eq_byteSum]; rfl
  rw [e]
  unfold block8 addq adcq
  exact (carry_close _ _ _ _ width64 (carry_add _ _ _ width64 h (load64_lt _ _))).1

theorem block16_eq (mem : Nat → Nat) (src res : Nat) (h : res < 2 ^ 64) :
    block16 mem src res = ocNorm (2 ^ 64 - 1) (res + byteSum 8 mem src 16) := by
  have e : res + byteSum 8 mem src 16
      = res + load64 mem (src + 0 * 8) + load64 mem (src + 1 * 8) := by
    rw [show (16 : Nat) = 0 + 8 + 8 from rfl, byteSum_add8 _ _ _ (by norm_num),
      byteSum_add8 _ _ _ (by norm_num)]
    simp only [byteSum, Nat.zero_add, Nat.add_assoc]
  rw [e]
  unfold block16 addq adcq
  exact (carry_close _ _ _ _ width64
    (carry_adc _ _ _ _ _ width64 (carry_add _ _ _ width64 h (load64_lt _ _)) (load64_lt _ _))).1

theorem block32_eq (mem : Nat → Nat) (src res : Nat) (h : res < 2 ^ 64) :
    block32 mem src res = ocNorm (2 ^ 64 - 1) (res + byteSum 8 mem src 32) := by
  have e : res + byteSum 8 mem src 32
      = res + load64 mem (src + 0 * 8) + load64 mem (src + 1 * 8) + load64 mem (src + 2 * 8)
        + load64 mem (src + 3 * 8) := by
    rw [show (32 : Nat) = 0 + 8 + 8 + 8 + 8 from rfl, byteSum_add8 _ _ _ (by norm_num),
      byteSum_add8 _ _ _ (by norm_num), byteSum_add8 _ _ _ (by norm_num),
      byteSum_add8 _ _ _ (by norm_num)]
    simp only [byteSum, Nat.zero_add, Nat.add_assoc]
  rw [e]
  unfold block32 addq adcq
  have c0 := carry_add _ _ _ width64 h (load64_lt mem (src + 0 * 8))
  have c1 := carry_adc _ _ _ _ _ width64 c0 (load64_lt mem (src + 1 * 8))
  have c2 := carry_adc _ _ _ _ _ width64 c1 (load64_lt mem (src + 2 * 8))
  have c3 := carry_adc _ _ _ _ _ width64 c2 (load64_lt mem (src + 3 * 8))
  exact (carry_close _ _ _ _ width64 c3).1

theorem block64_eq (mem : Nat → Nat) (src res : Nat) (h : res < 2 ^ 64) :
    block64 mem src res = ocNorm (2 ^ 64 - 1) (res + byteSum 8 mem src 64) := by
  have e : res + byteSum 8 mem src 64
      = res + load64 mem (src + 0 * 8) + load64 mem (src + 1 * 8) + load64 mem (src + 2 * 8)
        + load64 mem (src + 3 * 8) + load64 mem (src + 4 * 8) + load64 mem (src + 5 * 8)
        + load64 mem (src + 6 * 8) + load64 mem (src + 7 * 8) := by
    rw [show (64 : Nat) = 0 + 8 + 8 + 8 + 8 + 8 + 8 + 8 + 8 from rfl,
      byteSum_add8 _ _ _ (by norm_num), byteSum_add8 _ _ _ (by norm_num),
      byteSum_add8 _ _ _ (by norm_num), byteSum_add8 _ _ _ (by norm_num),
      byteSum_add8 _ _ _ (by norm_num), byteSum_add8 _ _ _ (by norm_num),
      byteSum_add8 _ _ _ (by norm_num), byteSum_add8 _ _ _ (by norm_num)]
    simp only [byteSum, Nat.zero_add, Nat.add_assoc]
  rw [e]
  unfold block64 addq adcq
  have c0 := carry_add _ _ _ width64 h (load64_lt mem (src + 0 * 8))
  have c1 := carry_adc _ _ _ _ _ width64 c0 (load64_lt mem (src + 1 * 8))
  have c2 := carry_adc _ _ _ _ _ width64 c1 (load64_lt mem (src + 2 * 8))
  have c3 := carry_adc _ _ _ _ _ width64 c2 (load64_lt mem (src + 3 * 8))
  have c4 := carry_adc _ _ _ _ _ width64 c3 (load64_lt mem (src + 4 * 8))
  have c5 := carry_adc _ _ _ _ _ width64 c4 (load64_lt mem (src + 5 * 8))
  have c6 := carry_adc _ _ _ _ _ width64 c5 (load64_lt mem (src + 6 * 8))
  have c7 := carry_adc _ _ _ _ _ width64 c6 (load64_lt mem (src + 7 * 8))
  exact (carry_close _ _ _ _ width64 c7).1

theorem addTrail_eq (trail res : Nat) (h : res < 2 ^ 64) (ht : trail < 2 ^ 64) :
    addTrail trail res = ocNorm (2 ^ 64 - 1) (res + trail) := by
  unfold addTrail addq adcq
  exact (carry_close _ _ _ _ width64 (carry_add _ _ _ width64 h ht)).1

theorem ocNorm64_lt (t : Nat) : ocNorm (2 ^ 64 - 1) t < 2 ^ 64 := by
  have := ocNorm_le (2 ^ 64 - 1) t (by norm_num)
  omega

/-- One block of `N` bytes at offset `k` extends the running sum from `k` to
`k + N` bytes. -/
theorem block_step (blk : (Nat → Nat) → Nat → Nat → Nat) (N : Nat)
    (hblk : ∀ mem src res, res < 2 ^ 64 →
      blk mem src res = ocNorm (2 ^ 64 - 1) (res + byteSum 8 mem src N))
    (mem : Nat → Nat) (buff k src t t0 : Nat) (hs : src = buff + k) (hk : k % 8 = 0)
    (ht0 : t0 = ocNorm (2 ^ 64 - 1) (t + byteSum 8 mem buff k)) :
    blk mem src t0 = ocNorm (2 ^ 64 - 1) (t + byteSum 8 mem buff (k + N)) := by
  subst hs ht0
  rw [hblk _ _ _ (ocNorm64_lt _), ocNorm_add_left _ _ _ (by norm_num),
    byteSum_split _ _ _ _ _ hk, Nat.add_assoc]

/-! ## The 64-byte loop -/

theorem while64_eq (mem : Nat → Nat) (len : Nat) : ∀ buff t, t < 2 ^ 64 →
    while64 mem buff len t
      = (buff + len / 64 * 64, len % 64,
          ocNorm (2 ^ 64 - 1) (t + byteSum 8 mem buff (len / 64 * 64))) := by
  induction len using Nat.strong_induction_on with
  | _ len ih =>
    intro buff t ht
    rw [while64]
    split
    · rename_i h
      rw [ih (len - 64) (by omega) (buff + 64) _ (by rw [block64_eq _ _ _ ht]; exact ocNorm64_lt _)]
      have e1 : len / 64 * 64 = 64 + (len - 64) / 64 * 64 := by omega
      have e2 : len % 64 = (len - 64) % 64 := by omega
      rw [block64_eq _ _ _ ht, ocNorm_add_left _ _ _ (by norm_num), e1, e2,
        byteSum_split _ _ _ _ _ (by norm_num : 64 % 8 = 0), Nat.add_assoc, Nat.add_assoc]
    · rename_i h
      have e1 : len / 64 * 64 = 0 := by omega
      have e2 : len % 64 = len := by omega
      rw [e1, e2]
      simp only [byteSum, Nat.add_zero]
      rw [ocNorm_of_le _ _ (by omega)]

/-! ## The tail word -/

theorem byteSum_lt (mem : Nat → Nat) (a n : Nat) (hn : n ≤ 8) : byteSum 8 mem a n < 256 ^ n := by
  have h0 := byteAt_lt mem (a + 0)
  have h1 := byteAt_lt mem (a + 1)
  have h2 := byteAt_lt mem (a + 2)
  have h3 := byteAt_lt mem (a + 3)
  have h4 := byteAt_lt mem (a + 4)
  have h5 := byteAt_lt mem (a + 5)
  have h6 := byteAt_lt mem (a + 6)
  have h7 := byteAt_lt mem (a + 7)
  interval_cases n <;> simp [byteSum] at * <;> omega

/-- Shifting left and right by `(8 - r) * 8` in 64 bits keeps exactly the low
`r` bytes. -/
theorem mask_byteSum (mem : Nat → Nat) (a n r : Nat) (hn : n ≤ 8) (hr : 1 ≤ r) (hrn : r ≤ n) :
    ((byteSum 8 mem a n <<< ((8 - r) * 8)) % 2 ^ 64) >>> ((8 - r) * 8) = byteSum 8 mem a r := by
  have h0 := byteAt_lt mem (a + 0)
  have h1 := byteAt_lt mem (a + 1)
  have h2 := byteAt_lt mem (a + 2)
  have h3 := byteAt_lt mem (a + 3)
  have h4 := byteAt_lt mem (a + 4)
  have h5 := byteAt_lt mem (a + 5)
  have h6 := byteAt_lt mem (a + 6)
  have h7 := byteAt_lt mem (a + 7)
  interval_cases n <;> interval_cases r <;>
    simp [byteSum, Nat.shiftLeft_eq, Nat.shiftRight_eq_div_pow] at * <;> omega

/-- The fixup path returns the bytes from `addr` up to the end of its aligned
word, zero-extended. -/
theorem fixup_eq (mem : Nat → Nat) (addr : Nat) :
    load_unaligned_zeropad_fixup mem addr = byteSum 8 mem addr (8 - addr % 8) := by
  have hcl : (((addr % 2 ^ 32) &&& 7) <<< 3) % 2 ^ 32 = addr % 8 * 8 := by
    rw [and_7, Nat.shiftLeft_eq]
    omega
  unfold load_unaligned_zeropad_fixup
  simp only [hcl]
  have hk : addr % 8 < 8 := Nat.mod_lt _ (by norm_num)
  obtain ⟨base, hb⟩ : ∃ base, addr = base + addr % 8 := ⟨addr - addr % 8, by omega⟩
  have hsub : addr - addr % 8 = base := by omega
  rw [hsub]
  generalize addr % 8 = k at *
  subst hb
  have h0 := byteAt_lt mem (base + 0)
  have h1 := byteAt_lt mem (base + 1)
  have h2 := byteAt_lt mem (base + 2)
  have h3 := byteAt_lt mem (base + 3)
  have h4 := byteAt_lt mem (base + 4)
  have h5 := byteAt_lt mem (base + 5)
  have h6 := byteAt_lt mem (base + 6)
  have h7 := byteAt_lt mem (base + 7)
  interval_cases k <;>
    simp [byteSum, load64, Nat.shiftRight_eq_div_pow, Nat.add_assoc] at * <;> omega

/-- The masked tail word is the little-endian value of the `len % 8` tail bytes
and nothing else. On the fault path this needs the tail to lie in one aligned
word. -/
theorem trailWord_eq (fault : Bool) (mem : Nat → Nat) (buff len : Nat) (hr : len % 8 ≠ 0)
    (hf : fault = true → buff % 8 + len % 8 ≤ 8) :
    trailWord fault mem buff len = byteSum 8 mem buff (len % 8) := by
  have hr7 : len % 8 < 8 := Nat.mod_lt _ (by norm_num)
  have hshift : ((8 - (len &&& 7)) * 8) % 2 ^ 32 = (8 - len % 8) * 8 := by
    rw [and_7]
    omega
  unfold trailWord load_unaligned_zeropad
  simp only [hshift]
  cases fault with
  | false =>
    simp only [Bool.false_eq_true, if_false]
    rw [load64_eq_byteSum]
    exact mask_byteSum mem buff 8 (len % 8) (by omega) (by omega) (by omega)
  | true =>
    simp only [if_true]
    rw [fixup_eq]
    exact mask_byteSum mem buff (8 - buff % 8) (len % 8) (by omega) (by omega)
      (by have := hf rfl; omega)

theorem byteSum_lt64 (mem : Nat → Nat) (a n : Nat) (hn : n < 8) : byteSum 8 mem a n < 2 ^ 64 := by
  have h := byteSum_lt mem a n (by omega)
  have h2 : 256 ^ n ≤ 256 ^ 8 := Nat.pow_le_pow_right (by norm_num) (by omega)
  have h3 : (256 : Nat) ^ 8 = 2 ^ 64 := by norm_num
  omega

/-! ## The shared body -/

/-- A conditional block of `N` bytes, as in `if (len & N) { ...; buff += N; }`. -/
theorem cond_step (blk : (Nat → Nat) → Nat → Nat → Nat) (N : Nat)
    (hblk : ∀ mem src res, res < 2 ^ 64 →
      blk mem src res = ocNorm (2 ^ 64 - 1) (res + byteSum 8 mem src N))
    (mem : Nat → Nat) (buff k t : Nat) (c : Prop) [Decidable c] (s s' : Nat × Nat)
    (hs1 : s.1 = buff + k) (hk : k % 8 = 0)
    (hs2 : s.2 = ocNorm (2 ^ 64 - 1) (t + byteSum 8 mem buff k))
    (hs' : s' = if c then (s.1 + N, blk mem s.1 s.2) else s) :
    s'.1 = buff + (k + if c then N else 0)
      ∧ s'.2 = ocNorm (2 ^ 64 - 1) (t + byteSum 8 mem buff (k + if c then N else 0)) := by
  subst hs'
  by_cases hc : c
  · simp only [hc, if_true]
    exact ⟨by rw [hs1, Nat.add_assoc], block_step blk N hblk mem buff k s.1 t s.2 hs1 hk hs2⟩
  · simp only [hc, if_false, Nat.add_zero]
    exact ⟨hs1, hs2⟩

/-- The body of the kernels adds, with end-around carry in 64 bits, the buffer
read as little-endian 8-byte words (the last one zero-padded). -/
theorem sumBody_eq (fault : Bool) (mem : Nat → Nat) (buff len t : Nat) (ht : t < 2 ^ 64)
    (hf : fault = true → tailInWord buff len) :
    sumBody fault mem buff len t = ocNorm (2 ^ 64 - 1) (t + byteSum 8 mem buff len) := by
  unfold sumBody
  lift_lets
  extract_lets s0 b l tt s1 s2 s3
  have hs0 : s0 = _ := while64_eq mem len buff t ht
  have hb : b = buff + len / 64 * 64 := by simp only [b, hs0]
  have hl : l = len % 64 := by simp only [l, hs0]
  have htt : tt = ocNorm (2 ^ 64 - 1) (t + byteSum 8 mem buff (len / 64 * 64)) := by
    simp only [tt, hs0]
  have h1 := cond_step block32 32 block32_eq mem buff (len / 64 * 64) t (l &&& 32 ≠ 0)
    (b, tt) s1 hb (by omega) htt rfl
  have h2 := cond_step block16 16 block16_eq mem buff _ t (l &&& 16 ≠ 0)
    s1 s2 h1.1 (by split <;> omega) h1.2 rfl
  have h3 := cond_step block8 8 block8_eq mem buff _ t (l &&& 8 ≠ 0)
    s2 s3 h2.1 (by split <;> split <;> omega) h2.2 rfl
  generalize hk3 : (len / 64 * 64 + (if l &&& 32 ≠ 0 then 32 else 0)
    + (if l &&& 16 ≠ 0 then 16 else 0) + if l &&& 8 ≠ 0 then 8 else 0) = k3 at h3
  have a32 := and_32 l
  have a16 := and_16 l
  have a8 := and_8 l
  have a7 := and_7 l
  have hk : k3 + l % 8 = len ∧ k3 % 8 = 0 ∧ l % 8 = len % 8 := by
    subst hk3
    split <;> split <;> split <;> omega
  rw [a7, h3.1, h3.2]
  unfold tailInWord at hf
  split
  · rename_i hr
    rw [trailWord_eq fault mem (buff + k3) l hr (fun h => by have := hf h; omega),
      addTrail_eq _ _ (ocNorm64_lt _) (byteSum_lt64 _ _ _ (Nat.mod_lt _ (by norm_num))),
      ocNorm_add_left _ _ _ (by norm_num), Nat.add_assoc,
      ← byteSum_split _ _ _ _ _ hk.2.1, hk.1]
  · rename_i hr
    have e : k3 = len := by omega
    rw [e]

/-! ## Byte sums: dependence on the bytes only, zero test, change of word size -/

theorem byteSum_congr (p : Nat) (mem1 mem2 : Nat → Nat) (b1 b2 n : Nat)
    (h : ∀ i, i < n → byteAt mem1 (b1 + i) = byteAt mem2 (b2 + i)) :
    byteSum p mem1 b1 n = byteSum p mem2 b2 n := by
  induction n with
  | zero => rfl
  | succ n ih =>
    rw [byteSum, byteSum, ih (fun i hi => h i (by omega)), h n (by omega)]

theorem byteSum_eq_zero_iff (p : Nat) (mem : Nat → Nat) (buff n : Nat) :
    byteSum p mem buff n = 0 ↔ ∀ i, i < n → byteAt mem (buff + i) = 0 := by
  induction n with
  | zero => simp [byteSum]
  | succ n ih =>
    rw [byteSum, Nat.add_eq_zero_iff, ih]
    have hpos : 0 < 256 ^ (n % p) := Nat.pow_pos (by norm_num)
    constructor
    · rintro ⟨h1, h2⟩ i hi
      rcases Nat.lt_succ_iff_lt_or_eq.1 hi with h | h
      · exact h1 i h
      · subst h
        rcases Nat.mul_eq_zero.1 h2 with h3 | h3
        · exact h3
        · omega
    · intro h
      exact ⟨fun i hi => h i (by omega), by rw [h n (by omega), Nat.zero_mul]⟩

theorem pow256_mod8_mod4 (n : Nat) :
    256 ^ (n % 8) % (2 ^ 32 - 1) = 256 ^ (n % 4) % (2 ^ 32 - 1) := by
  have h : n % 8 < 8 := Nat.mod_lt _ (by norm_num)
  have h4 : n % 4 = n % 8 % 4 := by omega
  rw [h4]
  generalize n % 8 = k at *
  interval_cases k <;> rfl

theorem pow256_mod8_mod2 (n : Nat) : 256 ^ (n % 8) % 65535 = 256 ^ (n % 2) % 65535 := by
  have h : n % 8 < 8 := Nat.mod_lt _ (by norm_num)
  have h4 : n % 2 = n % 8 % 2 := by omega
  rw [h4]
  generalize n % 8 = k at *
  interval_cases k <;> rfl

theorem byteSum_mod8_mod4 (mem : Nat → Nat) (buff n : Nat) :
    byteSum 8 mem buff n % (2 ^ 32 - 1) = byteSum 4 mem buff n % (2 ^ 32 - 1) := by
  induction n with
  | zero => rfl
  | succ n ih =>
    rw [byteSum, byteSum, Nat.add_mod, Nat.mul_mod, ih, pow256_mod8_mod4, ← Nat.mul_mod,
      ← Nat.add_mod]

theorem byteSum_mod8_mod2 (mem : Nat → Nat) (buff n : Nat) :
    byteSum 8 mem buff n % 65535 = byteSum 2 mem buff n % 65535 := by
  induction n with
  | zero => rfl
  | succ n ih =>
    rw [byteSum, byteSum, Nat.add_mod, Nat.mul_mod, ih, pow256_mod8_mod2, ← Nat.mul_mod,
      ← Nat.add_mod]

theorem byteSum_zero_iff_any (p q : Nat) (mem : Nat → Nat) (buff n : Nat) :
    byteSum p mem buff n = 0 ↔ byteSum q mem buff n = 0 := by
  rw [byteSum_eq_zero_iff, byteSum_eq_zero_iff]

/-- Reading from the second byte on shifts every 16-bit weight by one byte. -/
theorem byteSum2_succ (mem : Nat → Nat) (buff m : Nat) :
    byteSum 2 mem buff (m + 1) % 65535
      = (byteAt mem buff + 256 * byteSum 2 mem (buff + 1) m) % 65535 := by
  induction m with
  | zero => simp [byteSum]
  | succ m ih =>
    have e1 : byteSum 2 mem buff (m + 1 + 1)
        = byteSum 2 mem buff (m + 1) + byteAt mem (buff + (m + 1)) * 256 ^ ((m + 1) % 2) := rfl
    have e2 : byteSum 2 mem (buff + 1) (m + 1)
        = byteSum 2 mem (buff + 1) m + byteAt mem (buff + 1 + m) * 256 ^ (m % 2) := rfl
    have e : buff + (m + 1) = buff + 1 + m := by omega
    rw [e1, e2, e]
    generalize byteAt mem (buff + 1 + m) = x
    generalize byteSum 2 mem (buff + 1) m = y at *
    generalize byteSum 2 mem buff (m + 1) = z at *
    generalize byteAt mem buff = w at *
    rcases Nat.mod_two_eq_zero_or_one m with h | h
    · have h1 : (m + 1) % 2 = 1 := by omega
      rw [h, h1]
      omega
    · have h1 : (m + 1) % 2 = 0 := by omega
      rw [h, h1]
      omega

theorem byteSum_eq_sum (p : Nat) (mem : Nat → Nat) (buff n : Nat) :
    byteSum p mem buff n = ∑ i ∈ Finset.range n, byteAt mem (buff + i) * 256 ^ (i % p) := by
  induction n with
  | zero => rfl
  | succ n ih => rw [byteSum, Finset.sum_range_succ, ih]

theorem byteSum8_eq_sum (mem : Nat → Nat) (buff n : Nat) (hn : n ≤ 8) :
    byteSum 8 mem buff n = ∑ i ∈ Finset.range n, byteAt mem (buff + i) * 256 ^ i := by
  rw [byteSum_eq_sum]
  apply Finset.sum_congr rfl
  intro i hi
  rw [Nat.mod_eq_of_lt (by have := Finset.mem_range.1 hi; omega)]

/-! ## The generic kernel in closed form -/

/-- The byte swap `((x >> 8) & 0xff) | ((x & 0xff) << 8)` of a 16-bit value is
multiplication by `256` in one's-complement arithmetic modulo `65535`. -/
theorem swap_eq (x : Nat) (hx : x < 2 ^ 16) :
    ((x >>> 8) &&& 0xff) ||| ((x &&& 0xff) <<< 8) = ocNorm 65535 (256 * x) := by
  rw [and_ff, and_ff, Nat.shiftRight_eq_div_pow, Nat.shiftLeft_eq, Nat.lor_comm,
    Nat.mul_comm (x % 256) (2 ^ 8),
    ← Nat.mul_add_lt_is_or (Nat.mod_lt _ (by norm_num)) (x % 256)]
  simp only [Nat.reducePow] at *
  have e : 256 * x = (256 * (x % 256) + x / 256 % 256) + 65535 * (x / 256) := by omega
  apply ocNorm_unique
  · omega
  · rw [e, Nat.add_mul_mod_self_left]
  · omega

theorem from32to16_lt (a : Nat) : from32to16 a < 2 ^ 16 := by
  rw [from32to16_eq]
  have := ocNorm_le (2 ^ 16 - 1) (a % 2 ^ 32 / 2 ^ 16 + a % 2 ^ 16) (by norm_num)
  omega

theorem add32_with_carry_lt (a b : Nat) : add32_with_carry a b < 2 ^ 32 := by
  rw [add32_with_carry_eq]
  have := ocNorm_le (2 ^ 32 - 1) (a % 2 ^ 32 + b % 2 ^ 32) (by norm_num)
  omega

theorem ocNorm32_lt (t : Nat) : ocNorm (2 ^ 32 - 1) t < 2 ^ 32 := by
  have := ocNorm_le (2 ^ 32 - 1) t (by norm_num)
  omega

theorem ocNorm16_lt (t : Nat) : ocNorm 65535 t < 2 ^ 16 := by
  have := ocNorm_le 65535 t (by norm_num)
  omega

/-- The closing fold of the kernels applied to a 64-bit one's-complement sum. -/
theorem fold64_ocNorm (t : Nat) :
    add32_with_carry (ocNorm (2 ^ 64 - 1) t >>> 32) (ocNorm (2 ^ 64 - 1) t &&& 0xffffffff)
      = ocNorm (2 ^ 32 - 1) t := by
  rw [fold64 _ (ocNorm64_lt t), ocNorm32_ocNorm64]

/-- At an even address `csum_partial` returns the 32-bit one's-complement sum of
the seed and the buffer read as little-endian 8-byte words. -/
theorem csum_partial_even (fault : Bool) (mem : Nat → Nat) (buff len sum : Nat)
    (heven : buff % 2 = 0) (hf : fault = true → tailInWord buff len) :
    csum_partial fault mem buff len sum
      = ocNorm (2 ^ 32 - 1) (sum % 2 ^ 32 + byteSum 8 mem buff len) := by
  unfold csum_partial
  simp only [Nat.one_and_eq_mod_two, heven, ne_eq, not_true_eq_false, false_and, if_false]
  rw [sumBody_eq fault mem buff len _ (by omega) hf, fold64_ocNorm]

/-- At an odd address with at least one byte `csum_partial` returns the byte
swap of the 16-bit sum of the seed, the first byte as a high byte, and the rest
of the buffer. -/
theorem csum_partial_odd (fault : Bool) (mem : Nat → Nat) (buff len sum : Nat)
    (hodd : buff % 2 = 1) (hlen : 0 < len) (hf : fault = true → tailInWord (buff + 1) (len - 1)) :
    csum_partial fault mem buff len sum
      = ocNorm 65535 (256 * (sum % 2 ^ 32 + byteAt mem buff * 256
          + byteSum 8 mem (buff + 1) (len - 1))) := by
  unfold csum_partial
  have hlen0 : len ≠ 0 := by omega
  have hb := byteAt_lt mem buff
  have e : (sum % 2 ^ 32 + byteAt mem buff <<< 8) % 2 ^ 64
      = sum % 2 ^ 32 + byteAt mem buff * 256 := by
    rw [Nat.shiftLeft_eq]
    omega
  simp only [Nat.one_and_eq_mod_two, hodd, ne_eq, one_ne_zero, not_false_eq_true, hlen0,
    and_false, if_false, if_true, e]
  rw [sumBody_eq fault mem (buff + 1) (len - 1) _ (by omega) hf, fold64_ocNorm,
    from32to16_norm _ (ocNorm32_lt _), ocNorm16_ocNorm32, swap_eq _ (ocNorm16_lt _)]
  apply ocNorm_congr _ _ _ (by norm_num)
  · rw [Nat.mul_mod, ocNorm_mod, ← Nat.mul_mod]
  · have := ocNorm_eq_zero_iff 65535
      (sum % 2 ^ 32 + byteAt mem buff * 256 + byteSum 8 mem (buff + 1) (len - 1))
    omega

theorem csum_partial_len_zero (fault : Bool) (mem : Nat → Nat) (buff sum : Nat) :
    csum_partial fault mem buff 0 sum = sum % 2 ^ 32 := by
  rcases Nat.mod_two_eq_zero_or_one buff with h | h
  · rw [csum_partial_even fault mem buff 0 sum h (by intro _; unfold tailInWord; omega)]
    simp only [byteSum, Nat.add_zero]
    exact ocNorm_of_le _ _ (by omega)
  · unfold csum_partial
    simp [h]

/-! ## The 40-byte kernels in closed form -/

theorem ocNorm_add_right (M a b : Nat) (hM : 0 < M) :
    ocNorm M (a + ocNorm M b) = ocNorm M (a + b) := by
  rw [Nat.add_comm, ocNorm_add_left _ _ _ hM, Nat.add_comm]

theorem words5 (mem : Nat → Nat) (buff : Nat) :
    byteSum 8 mem buff 40
      = load64 mem (buff + 0 * 8) + load64 mem (buff + 1 * 8) + load64 mem (buff + 2 * 8)
        + load64 mem (buff + 3 * 8) + load64 mem (buff + 4 * 8) := by
  rw [show (40 : Nat) = 0 + 8 + 8 + 8 + 8 + 8 from rfl, byteSum_add8 _ _ _ (by norm_num),
    byteSum_add8 _ _ _ (by norm_num), byteSum_add8 _ _ _ (by norm_num),
    byteSum_add8 _ _ _ (by norm_num), byteSum_add8 _ _ _ (by norm_num)]
  simp only [byteSum, Nat.zero_add]

theorem byteSum4_add4 (mem : Nat → Nat) (buff n : Nat) (hn : n % 4 = 0) :
    byteSum 4 mem buff (n + 4) = byteSum 4 mem buff n + load32 mem (buff + n) := by
  rw [byteSum_split _ _ _ _ _ hn, load32_eq_byteSum]

theorem dwords10 (mem : Nat → Nat) (buff : Nat) :
    byteSum 4 mem buff 40
      = load32 mem (buff + 0 * 4) + load32 mem (buff + 1 * 4) + load32 mem (buff + 2 * 4)
        + load32 mem (buff + 3 * 4) + load32 mem (buff + 4 * 4) + load32 mem (buff + 5 * 4)
        + load32 mem (buff + 6 * 4) + load32 mem (buff + 7 * 4) + load32 mem (buff + 8 * 4)
        + load32 mem (buff + 9 * 4) := by
  rw [show (40 : Nat) = 0 + 4 + 4 + 4 + 4 + 4 + 4 + 4 + 4 + 4 + 4 from rfl,
    byteSum4_add4 _ _ _ (by norm_num), byteSum4_add4 _ _ _ (by norm_num),
    byteSum4_add4 _ _ _ (by norm_num), byteSum4_add4 _ _ _ (by norm_num),
    byteSum4_add4 _ _ _ (by norm_num), byteSum4_add4 _ _ _ (by norm_num),
    byteSum4_add4 _ _ _ (by norm_num), byteSum4_add4 _ _ _ (by norm_num),
    byteSum4_add4 _ _ _ (by norm_num), byteSum4_add4 _ _ _ (by norm_num)]
  simp only [byteSum, Nat.zero_add]

theorem csum_partial40_eq (fault : Bool) (mem : Nat → Nat) (buff len sum : Nat)
    (hf : fault = true → tailInWord buff len) :
    csum_partial40 fault mem buff len sum
      = ocNorm (2 ^ 32 - 1) (sum % 2 ^ 32 + byteSum 8 mem buff len) := by
  unfold csum_partial40
  simp only []
  rw [sumBody_eq fault mem buff len _ (by omega) hf, fold64_ocNorm]

theorem csum_partial41_eq (mem : Nat → Nat) (buff len sum : Nat) :
    csum_partial41 mem buff len sum
      = ocNorm (2 ^ 32 - 1) (sum % 2 ^ 32 + byteSum 8 mem buff 40) := by
  have hs : sum % 2 ^ 32 < 2 ^ 64 := by omega
  have c0 := carry_add _ _ _ width64 hs (load64_lt mem (buff + 0 * 8))
  have c1 := carry_adc _ _ _ _ _ width64 c0 (load64_lt mem (buff + 1 * 8))
  have c2 := carry_adc _ _ _ _ _ width64 c1 (load64_lt mem (buff + 2 * 8))
  have c3 := carry_adc _ _ _ _ _ width64 c2 (load64_lt mem (buff + 3 * 8))
  have c4 := carry_adc _ _ _ _ _ width64 c3 (load64_lt mem (buff + 4 * 8))
  have h := (carry_close _ _ _ _ width64 c4).1
  unfold csum_partial41 addq adcq
  simp only []
  rw [h, fold64_ocNorm, words5]
  congr 1
  omega

theorem csum_partial42_eq (mem : Nat → Nat) (buff len sum : Nat) :
    csum_partial42 mem buff len sum
      = ocNorm (2 ^ 32 - 1) (sum % 2 ^ 32 + byteSum 8 mem buff 40) := by
  have hs : sum % 2 ^ 32 < 2 ^ 64 := by omega
  have c0 := carry_init _ _ (load64_lt mem (buff + 0 * 8))
  have c1 := carry_adc _ _ _ _ _ width64 c0 (load64_lt mem (buff + 1 * 8))
  have c2 := carry_adc _ _ _ _ _ width64 c1 (load64_lt mem (buff + 2 * 8))
  have hc := (carry_close _ _ _ _ width64 c2).1
  have o0 := carry_init _ _ hs
  have o1 := carry_adc _ _ _ _ _ width64 o0 (load64_lt mem (buff + 3 * 8))
  have o2 := carry_adc _ _ _ _ _ width64 o1 (load64_lt mem (buff + 4 * 8))
  have o3 := carry_adc _ _ _ _ _ width64 o2 (ocNorm64_lt
    (load64 mem (buff + 0 * 8) + load64 mem (buff + 1 * 8) + load64 mem (buff + 2 * 8)))
  rw [← hc] at o3
  have h := (carry_close _ _ _ _ width64 o3).1
  unfold csum_partial42 adcx adox
  simp only []
  rw [h, fold64_ocNorm, hc, ← ocNorm32_ocNorm64, ocNorm_add_right _ _ _ (by norm_num),
    ocNorm32_ocNorm64, words5]
  congr 1
  omega

theorem csum_partial43_eq (mem : Nat → Nat) (buff len sum : Nat) :
    csum_partial43 mem buff len sum
      = ocNorm (2 ^ 32 - 1) (sum % 2 ^ 32 + byteSum 8 mem buff 40) := by
  have hs : sum % 2 ^ 32 < 2 ^ 64 := by omega
  have c0 := carry_init _ _ (load64_lt mem (buff + 0 * 8))
  have c1 := carry_adc _ _ _ _ _ width64 c0 (load64_lt mem (buff + 1 * 8))
  have c2 := carry_adc _ _ _ _ _ width64 c1 (load64_lt mem (buff + 2 * 8))
  have c3 := carry_adc _ _ _ _ _ width64 c2 (load64_lt mem (buff + 3 * 8))
  have hc := (carry_close _ _ _ _ width64 c3).1
  have o0 := carry_init _ _ hs
  have o1 := carry_adc _ _ _ _ _ width64 o0 (load64_lt mem (buff + 4 * 8))
  have o2 := carry_adc _ _ _ _ _ width64 o1 (ocNorm64_lt
    (load64 mem (buff + 0 * 8) + load64 mem (buff + 1 * 8) + load64 mem (buff + 2 * 8)
      + load64 mem (buff + 3 * 8)))
  rw [← hc] at o2
  have h := (carry_close _ _ _ _ width64 o2).1
  unfold csum_partial43 adcx adox
  simp only []
  rw [h, fold64_ocNorm, hc, ← ocNorm32_ocNorm64, ocNorm_add_right _ _ _ (by norm_num),
    ocNorm32_ocNorm64, words5]
  congr 1
  omega

theorem csum_partial44_eq (mem : Nat → Nat) (buff len sum : Nat) :
    csum_partial44 mem buff len sum
      = ocNorm (2 ^ 32 - 1) (sum % 2 ^ 32 + byteSum 8 mem buff 40) := by
  have hs : sum % 2 ^ 32 < 2 ^ 64 := by omega
  have c1 := carry_add _ _ _ width64 (load64_lt mem (buff + 0 * 8)) (load64_lt mem (buff + 1 * 8))
  have c2 := carry_adc _ _ _ _ _ width64 c1 (load64_lt mem (buff + 2 * 8))
  have hc := (carry_close _ _ _ _ width64 c2).1
  have o1 := carry_add _ _ _ width64 hs (load64_lt mem (buff + 3 * 8))
  have o2 := carry_adc _ _ _ _ _ width64 o1 (load64_lt mem (buff + 4 * 8))
  have o3 := carry_adc _ _ _ _ _ width64 o2 (ocNorm64_lt
    (load64 mem (buff + 0 * 8) + load64 mem (buff + 1 * 8) + load64 mem (buff + 2 * 8)))
  rw [← hc] at o3
  have h := (carry_close _ _ _ _ width64 o3).1
  unfold csum_partial44 addq adcq
  simp only []
  rw [h, fold64_ocNorm, hc, ← ocNorm32_ocNorm64, ocNorm_add_right _ _ _ (by norm_num),
    ocNorm32_ocNorm64, words5]
  congr 1
  omega

theorem csum_partial45_eq (mem : Nat → Nat) (buff len sum : Nat) :
    csum_partial45 mem buff len sum
      = ocNorm (2 ^ 32 - 1) (sum % 2 ^ 32 + byteSum 8 mem buff 40) := by
  have hs : sum % 2 ^ 32 < 2 ^ 64 := by omega
  have c1 := carry_add _ _ _ width64 (load64_lt mem (buff + 0 * 8)) (load64_lt mem (buff + 1 * 8))
  have c2 := carry_adc _ _ _ _ _ width64 c1 (load64_lt mem (buff + 2 * 8))
  have c3 := carry_adc _ _ _ _ _ width64 c2 (load64_lt mem (buff + 3 * 8))
  have hc := (carry_close _ _ _ _ width64 c3).1
  have o1 := carry_add _ _ _ width64 hs (load64_lt mem (buff + 4 * 8))
  have o2 := carry_adc _ _ _ _ _ width64 o1 (ocNorm64_lt
    (load64 mem (buff + 0 * 8) + load64 mem (buff + 1 * 8) + load64 mem (buff + 2 * 8)
      + load64 mem (buff + 3 * 8)))
  rw [← hc] at o2
  have h := (carry_close _ _ _ _ width64 o2).1
  unfold csum_partial45 addq adcq
  simp only []
  rw [h, fold64_ocNorm, hc, ← ocNorm32_ocNorm64, ocNorm_add_right _ _ _ (by norm_num),
    ocNorm32_ocNorm64, words5]
  congr 1
  omega

/-- The "Assume zero" kernel sums the buffer only: the seed is dropped. -/
theorem csum_partial46_eq (mem : Nat → Nat) (buff len sum : Nat) :
    csum_partial46 mem buff len sum = ocNorm (2 ^ 32 - 1) (byteSum 8 mem buff 40) := by
  have c1 := carry_add _ _ _ width64 (load64_lt mem (buff + 0 * 8)) (load64_lt mem (buff + 1 * 8))
  have c2 := carry_adc _ _ _ _ _ width64 c1 (load64_lt mem (buff + 2 * 8))
  have hc := (carry_close _ _ _ _ width64 c2).1
  have o1 := carry_add _ _ _ width64 (load64_lt mem (buff + 3 * 8)) (load64_lt mem (buff + 4 * 8))
  have o2 := carry_adc _ _ _ _ _ width64 o1 (ocNorm64_lt
    (load64 mem (buff + 0 * 8) + load64 mem (buff + 1 * 8) + load64 mem (buff + 2 * 8)))
  rw [← hc] at o2
  have h := (carry_close _ _ _ _ width64 o2).1
  unfold csum_partial46 addq adcq
  simp only []
  rw [h, fold64_ocNorm, hc, ← ocNorm32_ocNorm64, ocNorm_add_right _ _ _ (by norm_num),
    ocNorm32_ocNorm64, words5]
  congr 1
  omega

theorem csum_partial47_eq (mem : Nat → Nat) (buff len sum : Nat) :
    csum_partial47 mem buff len sum
      = ocNorm (2 ^ 32 - 1) (sum % 2 ^ 32 + byteSum 8 mem buff 40) := by
  have hs : sum % 2 ^ 32 < 2 ^ 32 := Nat.mod_lt _ (by norm_num)
  have a1 := carry_add _ _ _ width32 (load32_lt mem (buff + 0 * 4)) (load32_lt mem (buff + 4 * 4))
  have a2 := carry_adc _ _ _ _ _ width32 a1 (load32_lt mem (buff + 5 * 4))
  have ha := (carry_close _ _ _ _ width32 a2).1
  have b1 := carry_add _ _ _ width32 (load32_lt mem (buff + 1 * 4)) (load32_lt mem (buff + 6 * 4))
  have b2 := carry_adc _ _ _ _ _ width32 b1 (load32_lt mem (buff + 7 * 4))
  have hb := (carry_close _ _ _ _ width32 b2).1
  have c1 := carry_add _ _ _ width32 (load32_lt mem (buff + 2 * 4)) (load32_lt mem (buff + 8 * 4))
  have c2 := carry_adc _ _ _ _ _ width32 c1 (load32_lt mem (buff + 3 * 4))
  have hc := (carry_close _ _ _ _ width32 c2).1
  have d1 := carry_add _ _ _ width32 hs (load32_lt mem (buff + 9 * 4))
  have d2 := carry_adc _ _ _ _ _ width32 d1 (ocNorm32_lt
    (load32 mem (buff + 0 * 4) + load32 mem (buff + 4 * 4) + load32 mem (buff + 5 * 4)))
  have d3 := carry_adc _ _ _ _ _ width32 d2 (ocNorm32_lt
    (load32 mem (buff + 1 * 4) + load32 mem (buff + 6 * 4) + load32 mem (buff + 7 * 4)))
  have d4 := carry_adc _ _ _ _ _ width32 d3 (ocNorm32_lt
    (load32 mem (buff + 2 * 4) + load32 mem (buff + 8 * 4) + load32 mem (buff + 3 * 4)))
  rw [← ha, ← hb, ← hc] at d4
  have h := (carry_close _ _ _ _ width32 d4).1
  unfold csum_partial47 addl adcl
  simp only []
  rw [h, ha, hb, hc]
  have ma := ocNorm_mod (2 ^ 32 - 1)
    (load32 mem (buff + 0 * 4) + load32 mem (buff + 4 * 4) + load32 mem (buff + 5 * 4))
  have mb := ocNorm_mod (2 ^ 32 - 1)
    (load32 mem (buff + 1 * 4) + load32 mem (buff + 6 * 4) + load32 mem (buff + 7 * 4))
  have mc := ocNorm_mod (2 ^ 32 - 1)
    (load32 mem (buff + 2 * 4) + load32 mem (buff + 8 * 4) + load32 mem (buff + 3 * 4))
  have za := ocNorm_eq_zero_iff (2 ^ 32 - 1)
    (load32 mem (buff + 0 * 4) + load32 mem (buff + 4 * 4) + load32 mem (buff + 5 * 4))
  have zb := ocNorm_eq_zero_iff (2 ^ 32 - 1)
    (load32 mem (buff + 1 * 4) + load32 mem (buff + 6 * 4) + load32 mem (buff + 7 * 4))
  have zc := ocNorm_eq_zero_iff (2 ^ 32 - 1)
    (load32 mem (buff + 2 * 4) + load32 mem (buff + 8 * 4) + load32 mem (buff + 3 * 4))
  have m8 := byteSum_mod8_mod4 mem buff 40
  have z8 := byteSum_zero_iff_any 8 4 mem buff 40
  rw [dwords10] at m8 z8
  apply ocNorm_congr _ _ _ (by norm_num)
  · simp only [Nat.reducePow, Nat.reduceSub] at *
    omega
  · omega

/-! ## Consequences used by the claims -/

theorem tailReadable_even (fault : Bool) (buff len : Nat) (heven : buff % 2 = 0)
    (hf : tailReadable fault buff len) : fault = true → tailInWord buff len := by
  intro h
  have := hf h
  rw [heven] at this
  exact this

theorem tailReadable_odd (fault : Bool) (buff len : Nat) (hodd : buff % 2 = 1)
    (hf : tailReadable fault buff len) : fault = true → tailInWord (buff + 1) (len - 1) := by
  intro h
  have := hf h
  rw [hodd] at this
  exact this

/-- The 16-bit checksum of an even-aligned buffer in closed form. -/
theorem fold_csum_partial_even (fault : Bool) (mem : Nat → Nat) (buff len sum : Nat)
    (heven : buff % 2 = 0) (hf : tailReadable fault buff len) :
    from32to16 ( csum_partial fault mem buff len sum)
      = ocNorm 65535 (sum % 2 ^ 32 + byteSum 2 mem buff len) := by
  rw [csum_partial_even fault mem buff len sum heven (tailReadable_even _ _ _ heven hf),
    from32to16_norm _ (ocNorm32_lt _), ocNorm16_ocNorm32]
  apply ocNorm_congr _ _ _ (by norm_num)
  · rw [Nat.add_mod, byteSum_mod8_mod2, ← Nat.add_mod]
  · have := byteSum_zero_iff_any 8 2 mem buff len
    omega

/-- The 16-bit checksum of an odd-aligned buffer in closed form: the seed enters
multiplied by `256`, that is, byte-swapped. -/
theorem fold_csum_partial_odd (fault : Bool) (mem : Nat → Nat) (buff len sum : Nat)
    (hodd : buff % 2 = 1) (hlen : 0 < len) (hf : tailReadable fault buff len) :
    from32to16 ( csum_partial fault mem buff len sum)
      = ocNorm 65535 (256 * (sum % 2 ^ 32) + byteSum 2 mem buff len) := by
  rw [csum_partial_odd fault mem buff len sum hodd hlen (tailReadable_odd _ _ _ hodd hf),
    from32to16_norm _ (by have := ocNorm16_lt (256 * (sum % 2 ^ 32 + byteAt mem buff * 256
      + byteSum 8 mem (buff + 1) (len - 1))); omega), ocNorm_of_le _ _ (ocNorm_le _ _ (by norm_num))]
  obtain ⟨m, rfl⟩ : ∃ m, len = m + 1 := ⟨len - 1, by omega⟩
  simp only [Nat.add_sub_cancel]
  have h1 := byteSum2_succ mem buff m
  have h2 := byteSum_mod8_mod2 mem (buff + 1) m
  have z1 := byteSum_eq_zero_iff 2 mem buff (m + 1)
  have z2 := byteSum_eq_zero_iff 8 mem (buff + 1) m
  apply ocNorm_congr _ _ _ (by norm_num)
  · omega
  · constructor
    · intro h
      have hb : byteAt mem buff = 0 := by omega
      have hs : byteSum 8 mem (buff + 1) m = 0 := by omega
      have : byteSum 2 mem buff (m + 1) = 0 := by
        rw [z1]
        intro i hi
        rcases Nat.eq_zero_or_pos i with h0 | h0
        · subst h0; exact hb
        · have := z2.1 hs (i - 1) (by omega)
          rw [show buff + 1 + (i - 1) = buff + i by omega] at this
          exact this
      omega
    · intro h
      have hz : byteSum 2 mem buff (m + 1) = 0 := by omega
      have hb : byteAt mem buff = 0 := by have := z1.1 hz 0 (by omega); simpa using this
      have hs : byteSum 8 mem (buff + 1) m = 0 := by
        rw [z2]
        intro i hi
        have := z1.1 hz (i + 1) (by omega)
        rw [show buff + (i + 1) = buff + 1 + i by omega] at this
        exact this
      omega

/-! ### Chaining two calls -/

theorem ocNorm32_mod16 (t : Nat) : ocNorm (2 ^ 32 - 1) t % 65535 = t % 65535 := by
  have h := ocNorm_mod (2 ^ 32 - 1) t
  omega

/-- Chaining at a split point that is a multiple of 4, from an even address,
reproduces the 32-bit value of the single call. -/
theorem compose_split4 (f1 f2 f3 : Bool) (mem : Nat → Nat) (buff la lb : Nat)
    (heven : buff % 2 = 0) (h4 : la % 4 = 0) (hf1 : tailReadable f1 buff (la + lb))
    (hf2 : tailReadable f2 buff la) (hf3 : tailReadable f3 (buff + la) lb) :
    csum_partial f1 mem buff (la + lb) 0
      = csum_partial f3 mem (buff + la) lb ( csum_partial f2 mem buff la 0) := by
  have heven2 : (buff + la) % 2 = 0 := by omega
  rw [csum_partial_even f1 mem buff (la + lb) 0 heven (tailReadable_even _ _ _ heven hf1),
    csum_partial_even f2 mem buff la 0 heven (tailReadable_even _ _ _ heven hf2),
    csum_partial_even f3 mem (buff + la) lb _ heven2 (tailReadable_even _ _ _ heven2 hf3),
    Nat.mod_eq_of_lt (ocNorm32_lt _), ocNorm_add_left _ _ _ (by norm_num)]
  have m1 := byteSum_mod8_mod4 mem buff (la + lb)
  have m2 := byteSum_mod8_mod4 mem buff la
  have m3 := byteSum_mod8_mod4 mem (buff + la) lb
  have z1 := byteSum_zero_iff_any 8 4 mem buff (la + lb)
  have z2 := byteSum_zero_iff_any 8 4 mem buff la
  have z3 := byteSum_zero_iff_any 8 4 mem (buff + la) lb
  have e := byteSum_split 4 mem buff la lb h4
  apply ocNorm_congr _ _ _ (by norm_num)
  · simp only [Nat.reducePow, Nat.reduceSub, Nat.zero_mod, Nat.zero_add] at *
    omega
  · simp only [Nat.reducePow, Nat.zero_mod, Nat.zero_add]
    omega

/-- Chaining at an even split point, from an even address, reproduces the
16-bit checksum of the single call. -/
theorem compose_split2 (f1 f2 f3 : Bool) (mem : Nat → Nat) (buff la lb : Nat)
    (heven : buff % 2 = 0) (h2 : la % 2 = 0) (hf1 : tailReadable f1 buff (la + lb))
    (hf2 : tailReadable f2 buff la) (hf3 : tailReadable f3 (buff + la) lb) :
    from32to16 ( csum_partial f1 mem buff (la + lb) 0)
      = from32to16 ( csum_partial f3 mem (buff + la) lb ( csum_partial f2 mem buff la 0)) := by
  have heven2 : (buff + la) % 2 = 0 := by omega
  rw [fold_csum_partial_even f1 mem buff (la + lb) 0 heven hf1,
    fold_csum_partial_even f3 mem (buff + la) lb _ heven2 hf3,
    csum_partial_even f2 mem buff la 0 heven (tailReadable_even _ _ _ heven hf2),
    Nat.mod_eq_of_lt (ocNorm32_lt _)]
  have m2 := byteSum_mod8_mod2 mem buff la
  have n2 := ocNorm32_mod16 (0 % 2 ^ 32 + byteSum 8 mem buff la)
  have y2 := ocNorm_eq_zero_iff (2 ^ 32 - 1) (0 % 2 ^ 32 + byteSum 8 mem buff la)
  have z2 := byteSum_zero_iff_any 8 2 mem buff la
  have e := byteSum_split 2 mem buff la lb h2
  apply ocNorm_congr _ _ _ (by norm_num)
  · simp only [Nat.reducePow, Nat.reduceSub, Nat.zero_mod, Nat.zero_add] at *
    omega
  · simp only [Nat.reducePow, Nat.reduceSub, Nat.zero_mod, Nat.zero_add] at *
    omega

/-- At an even address the seed is added in one's-complement arithmetic: the
32-bit results already agree. -/
theorem seed_additive_even (fault : Bool) (mem : Nat → Nat) (buff n s : Nat)
    (heven : buff % 2 = 0) (hf : tailReadable fault buff n) :
    csum_partial fault mem buff n s
      = add32_with_carry s ( csum_partial fault mem buff n 0) := by
  rw [csum_partial_even fault mem buff n s heven (tailReadable_even _ _ _ heven hf),
    csum_partial_even fault mem buff n 0 heven (tailReadable_even _ _ _ heven hf),
    add32_with_carry_eq, Nat.mod_eq_of_lt (ocNorm32_lt _),
    ocNorm_add_right _ _ _ (by norm_num)]
  simp

/-! ## Claims -/

/-- C1: for a buffer at an even address, any length `n` and any 32-bit seed `s`,
`from32to16 (csum_partial buf n s)` is the RFC 1071 16-bit one's-complement sum:
it fits in 16 bits, is congruent modulo 65535 to `s` plus the bytes weighted as
little-endian 16-bit words, and is `0` exactly when `s = 0` and every byte is
`0`. -/
theorem csum_partial_rfc1071 (fault : Bool) (mem : Nat → Nat) (buff n s : Nat)
    (heven : buff % 2 = 0) (hs : s < 2 ^ 32) (hf : tailReadable fault buff n) :
    from32to16 ( csum_partial fault mem buff n s) < 2 ^ 16
      ∧ from32to16 ( csum_partial fault mem buff n s) % 65535
          = (s + ∑ i ∈ Finset.range n, byteAt mem (buff + i) * 256 ^ (i % 2)) % 65535
      ∧ (from32to16 ( csum_partial fault mem buff n s) = 0
          ↔ s = 0 ∧ ∀ i, i < n → byteAt mem (buff + i) = 0) := by
  rw [fold_csum_partial_even fault mem buff n s heven hf, Nat.mod_eq_of_lt hs,
    ← byteSum_eq_sum]
  refine ⟨ocNorm16_lt _, ocNorm_mod _ _, ?_⟩
  rw [ocNorm_eq_zero_iff, Nat.add_eq_zero_iff, byteSum_eq_zero_iff]

theorem csum_partial_rfc1071_witness :
    (2 % 2 = 0 ∧ 7 < 2 ^ 32 ∧ tailReadable true 2 5)
      ∧ (from32to16 ( csum_partial true (fun a => a) 2 5 7) < 2 ^ 16
        ∧ from32to16 ( csum_partial true (fun a => a) 2 5 7) % 65535
            = (7 + ∑ i ∈ Finset.range 5, byteAt (fun a => a) (2 + i) * 256 ^ (i % 2)) % 65535
        ∧ (from32to16 ( csum_partial true (fun a => a) 2 5 7) = 0
            ↔ 7 = 0 ∧ ∀ i, i < 5 → byteAt (fun a => a) (2 + i) = 0)) :=
  ⟨⟨by decide, by norm_num, fun _ => by unfold tailInWord; decide⟩,
    csum_partial_rfc1071 true (fun a => a) 2 5 7 (by decide) (by norm_num)
      (fun _ => by unfold tailInWord; decide)⟩

/-- C2 fails as stated: at the even address `0`, on 40 zero bytes with seed `1`,
`csum_partial` returns `1` and `csum_partial46` returns `0`; and at the odd
address `1`, on the bytes `mem a = a` with seed `0`, `csum_partial` returns the
byte-swapped 16-bit value `0xa591` while `csum_partial41` returns the 32-bit sum
`0xdcd2c8be`. -/
theorem csum_partial_family_differs :
    csum_partial false (fun _ => 0) 0 40 1 ≠ csum_partial46 (fun _ => 0) 0 40 1
      ∧ csum_partial false (fun a => a) 1 40 0 ≠ csum_partial41 (fun a => a) 1 40 0 := by
  have h1 : csum_partial false (fun _ => 0) 0 40 1 = 1 := by
    rw [csum_partial_even false _ 0 40 1 (by decide) (by intro h; cases h)]
    decide
  have h2 : csum_partial46 (fun _ => 0) 0 40 1 = 0 := by
    rw [csum_partial46_eq]
    decide
  have h3 : csum_partial false (fun a => a) 1 40 0 = 0xa591 := by
    rw [csum_partial_odd false _ 1 40 0 (by decide) (by decide) (by intro h; cases h)]
    decide
  have h4 : csum_partial41 (fun a => a) 1 40 0 = 0xdcd2c8be := by
    rw [csum_partial41_eq]
    decide
  rw [h1, h2, h3, h4]
  decide

/-- C2 (amended): for every 40-byte buffer at an even address and every seed `s`,
the kernels `csum_partial40`, `41`, `42`, `43`, `44`, `45` and `47` return
exactly `csum_partial buf 40 s`, and `csum_partial46` returns
`csum_partial buf 40 0`. -/
theorem csum_partial40_family_agree (fault : Bool) (mem : Nat → Nat) (buff s : Nat)
    (heven : buff % 2 = 0) :
    csum_partial40 fault mem buff 40 s = csum_partial fault mem buff 40 s
      ∧ csum_partial41 mem buff 40 s = csum_partial fault mem buff 40 s
      ∧ csum_partial42 mem buff 40 s = csum_partial fault mem buff 40 s
      ∧ csum_partial43 mem buff 40 s = csum_partial fault mem buff 40 s
      ∧ csum_partial44 mem buff 40 s = csum_partial fault mem buff 40 s
      ∧ csum_partial45 mem buff 40 s = csum_partial fault mem buff 40 s
      ∧ csum_partial47 mem buff 40 s = csum_partial fault mem buff 40 s
      ∧ csum_partial46 mem buff 40 s = csum_partial fault mem buff 40 0 := by
  have ht : fault = true → tailInWord buff 40 := by
    intro _
    unfold tailInWord
    omega
  rw [csum_partial_even fault mem buff 40 s heven ht,
    csum_partial_even fault mem buff 40 0 heven ht, csum_partial40_eq fault mem buff 40 s ht,
    csum_partial41_eq, csum_partial42_eq, csum_partial43_eq, csum_partial44_eq,
    csum_partial45_eq, csum_partial46_eq, csum_partial47_eq]
  simp

theorem csum_partial40_family_agree_witness :
    6 % 2 = 0
      ∧ (csum_partial40 true (fun a => 3 * a) 6 40 9 = csum_partial true (fun a => 3 * a) 6 40 9
      ∧ csum_partial41 (fun a => 3 * a) 6 40 9 = csum_partial true (fun a => 3 * a) 6 40 9
      ∧ csum_partial42 (fun a => 3 * a) 6 40 9 = csum_partial true (fun a => 3 * a) 6 40 9
      ∧ csum_partial43 (fun a => 3 * a) 6 40 9 = csum_partial true (fun a => 3 * a) 6 40 9
      ∧ csum_partial44 (fun a => 3 * a) 6 40 9 = csum_partial true (fun a => 3 * a) 6 40 9
      ∧ csum_partial45 (fun a => 3 * a) 6 40 9 = csum_partial true (fun a => 3 * a) 6 40 9
      ∧ csum_partial47 (fun a => 3 * a) 6 40 9 = csum_partial true (fun a => 3 * a) 6 40 9
      ∧ csum_partial46 (fun a => 3 * a) 6 40 9 = csum_partial true (fun a => 3 * a) 6 40 0) :=
  ⟨by decide, csum_partial40_family_agree true (fun a => 3 * a) 6 9 (by decide)⟩

/-- C3 fails as stated. Split at offset 2 of the bytes `1, 0, 1, 0` at address
`0`: one call returns `0x10001`, the chained calls return `2`. Split at offset 1
of the bytes `1, 2` at address `0`: the two sides differ even after folding to 16
bits (`0x0201` against `0x0102`). -/
theorem csum_partial_incremental_fails :
    csum_partial false (fun a => (a + 1) % 2) 0 (2 + 2) 0
        ≠ csum_partial false (fun a => (a + 1) % 2) (0 + 2) 2
            ( csum_partial false (fun a => (a + 1) % 2) 0 2 0)
      ∧ from32to16 ( csum_partial false (fun a => a + 1) 0 (1 + 1) 0)
        ≠ from32to16 ( csum_partial false (fun a => a + 1) (0 + 1) 1
            ( csum_partial false (fun a => a + 1) 0 1 0)) := by
  have h1 : csum_partial false (fun a => (a + 1) % 2) 0 (2 + 2) 0 = 0x10001 := by
    rw [csum_partial_even false _ 0 (2 + 2) 0 (by decide) (by intro h; cases h)]
    decide
  have h2 : csum_partial false (fun a => (a + 1) % 2) 0 2 0 = 1 := by
    rw [csum_partial_even false _ 0 2 0 (by decide) (by intro h; cases h)]
    decide
  have h3 : csum_partial false (fun a => (a + 1) % 2) (0 + 2) 2 1 = 2 := by
    rw [csum_partial_even false _ (0 + 2) 2 1 (by decide) (by intro h; cases h)]
    decide
  have h4 : csum_partial false (fun a => a + 1) 0 (1 + 1) 0 = 0x0201 := by
    rw [csum_partial_even false _ 0 (1 + 1) 0 (by decide) (by intro h; cases h)]
    decide
  have h5 : csum_partial false (fun a => a + 1) 0 1 0 = 1 := by
    rw [csum_partial_even false _ 0 1 0 (by decide) (by intro h; cases h)]
    decide
  have h6 : csum_partial false (fun a => a + 1) (0 + 1) 1 1 = 0x0102 := by
    rw [csum_partial_odd false _ (0 + 1) 1 1 (by decide) (by decide) (by intro h; cases h)]
    decide
  rw [h1, h2, h3, h4, h5, h6]
  decide

/-- C3 (amended): for byte sequences `A`, `B` stored contiguously from an even
address with `len A` even, one call over `A ++ B` and the chained calls agree
after folding to 16 bits with `from32to16`; when `len A` is a multiple of 4 they
agree bit for bit. -/
theorem csum_partial_incremental (f1 f2 f3 : Bool) (mem : Nat → Nat) (buff la lb : Nat)
    (heven : buff % 2 = 0) (h2 : la % 2 = 0) (hf1 : tailReadable f1 buff (la + lb))
    (hf2 : tailReadable f2 buff la) (hf3 : tailReadable f3 (buff + la) lb) :
    from32to16 ( csum_partial f1 mem buff (la + lb) 0)
        = from32to16 ( csum_partial f3 mem (buff + la) lb ( csum_partial f2 mem buff la 0))
      ∧ (la % 4 = 0 → csum_partial f1 mem buff (la + lb) 0
          = csum_partial f3 mem (buff + la) lb ( csum_partial f2 mem buff la 0)) :=
  ⟨compose_split2 f1 f2 f3 mem buff la lb heven h2 hf1 hf2 hf3,
    fun h4 => compose_split4 f1 f2 f3 mem buff la lb heven h4 hf1 hf2 hf3⟩

theorem csum_partial_incremental_witness :
    (8 % 2 = 0 ∧ 4 % 2 = 0 ∧ tailReadable true 8 (4 + 3) ∧ tailReadable true 8 4
        ∧ tailReadable true (8 + 4) 3)
      ∧ (from32to16 ( csum_partial true (fun a => 5 * a) 8 (4 + 3) 0)
          = from32to16 ( csum_partial true (fun a => 5 * a) (8 + 4) 3
              ( csum_partial true (fun a => 5 * a) 8 4 0))
        ∧ (4 % 4 = 0 → csum_partial true (fun a => 5 * a) 8 (4 + 3) 0
            = csum_partial true (fun a => 5 * a) (8 + 4) 3
                ( csum_partial true (fun a => 5 * a) 8 4 0))) :=
  ⟨⟨by decide, by decide, fun _ => by unfold tailInWord; decide,
      fun _ => by unfold tailInWord; decide, fun _ => by unfold tailInWord; decide⟩,
    csum_partial_incremental true true true (fun a => 5 * a) 8 4 3 (by decide) (by decide)
      (fun _ => by unfold tailInWord; decide) (fun _ => by unfold tailInWord; decide)
      (fun _ => by unfold tailInWord; decide)⟩

/-- C4 at the failing input: 40 zero bytes at the odd address `1` with seed `1`.
The kernel returns `0x100` (the seed byte-swapped), while adding the seed to the
checksum of the buffer alone gives `1`. -/
theorem csum_partial_seed_odd :
    from32to16 ( csum_partial false (fun _ => 0) 1 40 1) = 0x100
      ∧ from32to16 (add32_with_carry 1 ( csum_partial false (fun _ => 0) 1 40 0)) = 1 := by
  have h1 : csum_partial false (fun _ => 0) 1 40 1 = 0x100 := by
    rw [csum_partial_odd false _ 1 40 1 (by decide) (by decide) (by intro h; cases h)]
    decide
  have h2 : csum_partial false (fun _ => 0) 1 40 0 = 0 := by
    rw [csum_partial_odd false _ 1 40 0 (by decide) (by decide) (by intro h; cases h)]
    decide
  rw [h1, h2]
  decide

/-- C5: with seed `0`, the same `n` bytes checksummed from an odd start address
and from an even start address give the same 16-bit checksum after
`from32to16`. -/
theorem csum_partial_alignment_invariant (f1 f2 : Bool) (mem1 mem2 : Nat → Nat)
    (b1 b2 n : Nat) (hodd : b1 % 2 = 1) (heven : b2 % 2 = 0)
    (hbytes : ∀ i, i < n → byteAt mem1 (b1 + i) = byteAt mem2 (b2 + i))
    (hf1 : tailReadable f1 b1 n) (hf2 : tailReadable f2 b2 n) :
    from32to16 ( csum_partial f1 mem1 b1 n 0) = from32to16 ( csum_partial f2 mem2 b2 n 0) := by
  rcases Nat.eq_zero_or_pos n with h0 | hpos
  · subst h0
    rw [csum_partial_len_zero, csum_partial_len_zero]
  · rw [fold_csum_partial_odd f1 mem1 b1 n 0 hodd hpos hf1,
      fold_csum_partial_even f2 mem2 b2 n 0 heven hf2, byteSum_congr 2 mem1 mem2 b1 b2 n hbytes]
    simp

theorem csum_partial_alignment_invariant_witness :
    (3 % 2 = 1 ∧ 10 % 2 = 0
        ∧ (∀ i, i < 13 → byteAt (fun a => 7 * (a + 7)) (3 + i) = byteAt (fun a => 7 * a) (10 + i))
        ∧ tailReadable true 3 13 ∧ tailReadable false 10 13)
      ∧ from32to16 ( csum_partial true (fun a => 7 * (a + 7)) 3 13 0)
          = from32to16 ( csum_partial false (fun a => 7 * a) 10 13 0) :=
  ⟨⟨by decide, by decide, fun i _ => by simp only [byteAt]; omega,
      fun _ => by unfold tailInWord; decide, fun h => by cases h⟩,
    csum_partial_alignment_invariant true false (fun a => 7 * (a + 7)) (fun a => 7 * a) 3 10 13
      (by decide) (by decide) (fun i _ => by simp only [byteAt]; omega)
      (fun _ => by unfold tailInWord; decide) (fun h => by cases h)⟩

/-- C6: with length `0`, `csum_partial` returns the 32-bit seed unchanged, at any
start address (even or odd), whatever the memory contents and whichever path the
tail loader would take. -/
theorem csum_partial_zero_length (fault : Bool) (mem : Nat → Nat) (buff s : Nat)
    (hs : s < 2 ^ 32) : csum_partial fault mem buff 0 s = s := by
  rw [csum_partial_len_zero, Nat.mod_eq_of_lt hs]

theorem csum_partial_zero_length_witness :
    0xdeadbeef < 2 ^ 32
      ∧ csum_partial true (fun a => a) 4097 0 0xdeadbeef = 0xdeadbeef
      ∧ csum_partial false (fun a => a) 4096 0 0xdeadbeef = 0xdeadbeef :=
  ⟨by norm_num, csum_partial_zero_length true (fun a => a) 4097 0xdeadbeef (by norm_num),
    csum_partial_zero_length false (fun a => a) 4096 0xdeadbeef (by norm_num)⟩

/-- C7: for a remainder `r = len & 7` in `1..7`, the tail word
`(load_unaligned_zeropad(buff) << shift) >> shift` is the little-endian value of
the `r` bytes at `buff`: it is below `256 ^ r`, and it is the same in every
memory that agrees on those `r` bytes, whatever follows them. -/
theorem trailWord_tail_safe (fault : Bool) (mem : Nat → Nat) (buff len : Nat)
    (hr : len &&& 7 ≠ 0) (hf : fault = true → tailInWord buff len) :
    trailWord fault mem buff len
        = ∑ i ∈ Finset.range (len &&& 7), byteAt mem (buff + i) * 256 ^ i
      ∧ trailWord fault mem buff len < 256 ^ (len &&& 7)
      ∧ ∀ mem2 : Nat → Nat, (∀ i, i < len &&& 7 → byteAt mem2 (buff + i) = byteAt mem (buff + i)) →
          trailWord fault mem2 buff len = trailWord fault mem buff len := by
  rw [and_7] at *
  have h7 : len % 8 < 8 := Nat.mod_lt _ (by norm_num)
  refine ⟨?_, ?_, ?_⟩
  · rw [trailWord_eq fault mem buff len hr hf, byteSum8_eq_sum _ _ _ (by omega)]
  · rw [trailWord_eq fault mem buff len hr hf]
    exact byteSum_lt mem buff (len % 8) (by omega)
  · intro mem2 h
    rw [trailWord_eq fault mem buff len hr hf, trailWord_eq fault mem2 buff len hr hf]
    exact byteSum_congr 8 mem2 mem buff buff (len % 8) h

theorem trailWord_tail_safe_witness :
    (43 &&& 7 ≠ 0 ∧ (true = true → tailInWord 5 43))
      ∧ (trailWord true (fun a => a + 1) 5 43
          = ∑ i ∈ Finset.range (43 &&& 7), byteAt (fun a => a + 1) (5 + i) * 256 ^ i
        ∧ trailWord true (fun a => a + 1) 5 43 < 256 ^ (43 &&& 7)
        ∧ ∀ mem2 : Nat → Nat,
            (∀ i, i < 43 &&& 7 → byteAt mem2 (5 + i) = byteAt (fun a => a + 1) (5 + i)) →
            trailWord true mem2 5 43 = trailWord true (fun a => a + 1) 5 43) :=
  ⟨⟨by decide, fun _ => by unfold tailInWord; decide⟩,
    trailWord_tail_safe true (fun a => a + 1) 5 43 (by decide)
      (fun _ => by unfold tailInWord; decide)⟩

/-- C8: for a given start-address parity, the result of `csum_partial` depends
only on `len`, the seed and the `len` bytes of the buffer: two calls with the
same parity, `len` and seed on memories that agree on the buffer return the same
value, however the memories differ elsewhere. -/
theorem csum_partial_deterministic (f1 f2 : Bool) (mem1 mem2 : Nat → Nat)
    (b1 b2 len sum : Nat) (hpar : b1 % 2 = b2 % 2)
    (hbytes : ∀ i, i < len → byteAt mem1 (b1 + i) = byteAt mem2 (b2 + i))
    (hf1 : tailReadable f1 b1 len) (hf2 : tailReadable f2 b2 len) :
    csum_partial f1 mem1 b1 len sum = csum_partial f2 mem2 b2 len sum := by
  rcases Nat.mod_two_eq_zero_or_one b1 with h | h
  · have h' : b2 % 2 = 0 := by omega
    rw [csum_partial_even f1 mem1 b1 len sum h (tailReadable_even _ _ _ h hf1),
      csum_partial_even f2 mem2 b2 len sum h' (tailReadable_even _ _ _ h' hf2),
      byteSum_congr 8 mem1 mem2 b1 b2 len hbytes]
  · have h' : b2 % 2 = 1 := by omega
    rcases Nat.eq_zero_or_pos len with h0 | hpos
    · subst h0
      rw [csum_partial_len_zero, csum_partial_len_zero]
    · have e0 : byteAt mem1 b1 = byteAt mem2 b2 := hbytes 0 hpos
      have e1 : byteSum 8 mem1 (b1 + 1) (len - 1) = byteSum 8 mem2 (b2 + 1) (len - 1) := by
        apply byteSum_congr
        intro i hi
        have := hbytes (1 + i) (by omega)
        rw [Nat.add_assoc, Nat.add_assoc]
        exact this
      rw [csum_partial_odd f1 mem1 b1 len sum h hpos (tailReadable_odd _ _ _ h hf1),
        csum_partial_odd f2 mem2 b2 len sum h' hpos (tailReadable_odd _ _ _ h' hf2), e0, e1]

theorem csum_partial_deterministic_witness :
    (9 % 2 = 21 % 2
        ∧ (∀ i, i < 14 → byteAt (fun a => if a < 23 then a + 4 else 0) (9 + i)
            = byteAt (fun a => if a < 35 then a - 8 else 255) (21 + i))
        ∧ tailReadable true 9 14 ∧ tailReadable false 21 14)
      ∧ csum_partial true (fun a => if a < 23 then a + 4 else 0) 9 14 77
          = csum_partial false (fun a => if a < 35 then a - 8 else 255) 21 14 77 :=
  ⟨⟨by decide, by decide, (fun _ => by unfold tailInWord; decide), (fun h => by cases h)⟩,
    csum_partial_deterministic true false (fun a => if a < 23 then a + 4 else 0)
      (fun a => if a < 35 then a - 8 else 255) 9 21 14 77 (by decide) (by decide)
      (fun _ => by unfold tailInWord; decide) (fun h => by cases h)⟩

/-- C9 fails as stated: at the even address `0` with length `0` and seed
`0x12345678`, `csum_partial` returns `0x12345678`, whose upper 16 bits are not
zero. -/
theorem csum_partial_upper_bits_nonzero :
    ¬ csum_partial false (fun _ => 0) 0 0 0x12345678 < 2 ^ 16 := by
  rw [csum_partial_len_zero]
  decide

/-- C9 (amended): the value returned by `csum_partial` is always below `2 ^ 32`,
and its upper 16 bits are zero when the buffer starts at an odd address and
`len ≥ 1`. -/
theorem csum_partial_result_bound (fault : Bool) (mem : Nat → Nat) (buff len sum : Nat) :
    csum_partial fault mem buff len sum < 2 ^ 32
      ∧ (buff % 2 = 1 → 0 < len → csum_partial fault mem buff len sum < 2 ^ 16) := by
  have key : ∀ t, ((from32to16 t >>> 8) &&& 0xff) ||| ((from32to16 t &&& 0xff) <<< 8) < 2 ^ 16 := by
    intro t
    rw [swap_eq _ (from32to16_lt t)]
    exact ocNorm16_lt _
  constructor
  · unfold csum_partial
    simp only []
    split
    · exact Nat.mod_lt _ (by norm_num)
    · split
      · exact Nat.lt_trans (key _) (by norm_num)
      · exact add32_with_carry_lt _ _
  · intro hodd hlen
    unfold csum_partial
    have hlen0 : len ≠ 0 := by omega
    simp only [Nat.one_and_eq_mod_two, hodd, ne_eq, one_ne_zero, not_false_eq_true, hlen0,
      and_false, if_false, if_true]
    exact key _

theorem csum_partial_result_bound_witness :
    csum_partial true (fun a => a) 7 100 0xffffffff < 2 ^ 32
      ∧ (7 % 2 = 1 → 0 < 100 → csum_partial true (fun a => a) 7 100 0xffffffff < 2 ^ 16) :=
  csum_partial_result_bound true (fun a => a) 7 100 0xffffffff

/-- C10: with seed `0`, 40 zero bytes checksum to `0`, for `csum_partial` at
either start alignment and for each of `csum_partial40` .. `csum_partial47`. -/
theorem csum_zero_vector (fault : Bool) (mem : Nat → Nat) (buff : Nat)
    (hz : ∀ i, i < 40 → byteAt mem (buff + i) = 0) (hf : tailReadable fault buff 40) :
    csum_partial fault mem buff 40 0 = 0
      ∧ csum_partial40 fault mem buff 40 0 = 0
      ∧ csum_partial41 mem buff 40 0 = 0
      ∧ csum_partial42 mem buff 40 0 = 0
      ∧ csum_partial43 mem buff 40 0 = 0
      ∧ csum_partial44 mem buff 40 0 = 0
      ∧ csum_partial45 mem buff 40 0 = 0
      ∧ csum_partial46 mem buff 40 0 = 0
      ∧ csum_partial47 mem buff 40 0 = 0 := by
  have hb : byteSum 8 mem buff 40 = 0 := (byteSum_eq_zero_iff 8 mem buff 40).2 hz
  have ht : fault = true → tailInWord buff 40 := by
    intro _
    unfold tailInWord
    omega
  have h0 : csum_partial fault mem buff 40 0 = 0 := by
    rcases Nat.mod_two_eq_zero_or_one buff with h | h
    · rw [csum_partial_even fault mem buff 40 0 h ht, hb]
      rfl
    · have e1 : byteSum 8 mem (buff + 1) (40 - 1) = 0 := by
        rw [byteSum_eq_zero_iff]
        intro i hi
        have := hz (1 + i) (by omega)
        rw [Nat.add_assoc]
        exact this
      have e0 : byteAt mem buff = 0 := hz 0 (by norm_num)
      rw [csum_partial_odd fault mem buff 40 0 h (by norm_num) (tailReadable_odd _ _ _ h hf),
        e0, e1]
      rfl
  rw [h0, csum_partial40_eq fault mem buff 40 0 ht, csum_partial41_eq, csum_partial42_eq,
    csum_partial43_eq, csum_partial44_eq, csum_partial45_eq, csum_partial46_eq,
    csum_partial47_eq, hb]
  simp [ocNorm]

theorem csum_zero_vector_witness :
    ((∀ i, i < 40 → byteAt (fun a => if 39 ≤ a ∧ a < 79 then 0 else 0xff) (39 + i) = 0)
        ∧ tailReadable true 39 40)
      ∧ ( csum_partial true (fun a => if 39 ≤ a ∧ a < 79 then 0 else 0xff) 39 40 0 = 0
        ∧ csum_partial40 true (fun a => if 39 ≤ a ∧ a < 79 then 0 else 0xff) 39 40 0 = 0
        ∧ csum_partial41 (fun a => if 39 ≤ a ∧ a < 79 then 0 else 0xff) 39 40 0 = 0
        ∧ csum_partial42 (fun a => if 39 ≤ a ∧ a < 79 then 0 else 0xff) 39 40 0 = 0
        ∧ csum_partial43 (fun a => if 39 ≤ a ∧ a < 79 then 0 else 0xff) 39 40 0 = 0
        ∧ csum_partial44 (fun a => if 39 ≤ a ∧ a < 79 then 0 else 0xff) 39 40 0 = 0
        ∧ csum_partial45 (fun a => if 39 ≤ a ∧ a < 79 then 0 else 0xff) 39 40 0 = 0
        ∧ csum_partial46 (fun a => if 39 ≤ a ∧ a < 79 then 0 else 0xff) 39 40 0 = 0
        ∧ csum_partial47 (fun a => if 39 ≤ a ∧ a < 79 then 0 else 0xff) 39 40 0 = 0) :=
  ⟨⟨by decide, fun _ => by unfold tailInWord; decide⟩,
    csum_zero_vector true (fun a => if 39 ≤ a ∧ a < 79 then 0 else 0xff) 39 (by decide)
      (fun _ => by unfold tailInWord; decide)⟩

/-! ## Carry chains of any length -/

theorem adcChain_carry (W : Nat) (hW : W = 2 ^ 16 ∨ W = 2 ^ 32 ∨ W = 2 ^ 64) (ws : List Nat) :
    ∀ (st : Nat × Nat) (t : Nat), Carry W st.1 st.2 t → (∀ w, w ∈ ws → w < W) →
      Carry W (adcChain W ws st).1 (adcChain W ws st).2 (t + ws.sum) := by
  induction ws with
  | nil =>
    intro st t h _
    simpa [adcChain] using h
  | cons w ws ih =>
    intro st t h hws
    have h1 := carry_adc W st.1 st.2 t w hW h (hws w (List.mem_cons_self w ws))
    have h2 := ih (adc_w W w st.1 st.2) (t + w) h1
      (fun x hx => hws x (List.mem_cons_of_mem w hx))
    have e : t + (w :: ws).sum = t + w + ws.sum := by
      rw [List.sum_cons, Nat.add_assoc]
    rw [e]
    exact h2

/-- A closed chain returns the one's-complement sum of the accumulator and all
operands, and its closing `adc $0` leaves the carry flag clear. -/
theorem carryChain_eq (W : Nat) (hW : W = 2 ^ 16 ∨ W = 2 ^ 32 ∨ W = 2 ^ 64) (acc w0 : Nat)
    (ws : List Nat) (hacc : acc < W) (hw0 : w0 < W) (hws : ∀ w, w ∈ ws → w < W) :
    (carryChain W acc w0 ws).1 = ocNorm (W - 1) (acc + w0 + ws.sum)
      ∧ (carryChain W acc w0 ws).2 = 0 := by
  unfold carryChain
  exact carry_close W _ _ _ hW
    (adcChain_carry W hW ws _ _ (carry_add W acc w0 hW hacc hw0) hws)

/-- The header bytes as seen through `bytesAt`. -/
theorem byteAt_bytesAt (base : Nat) (l : List Nat) (i : Nat) :
    byteAt (bytesAt base l) (base + i) = l.getD i 0 % 256 := by
  unfold byteAt bytesAt
  simp


/-! ### The fixup path of the tail loader -/

/-- Clearing the low three bits with `and $-8` rounds a 64-bit address down to
a multiple of 8. -/
theorem and_neg8 (addr : Nat) (haddr : addr < 2 ^ 64) :
    addr &&& (2 ^ 64 - 8) = addr - addr % 8 := by
  have hdiv : (addr &&& (2 ^ 64 - 8)) / 8 = addr / 8 := by
    have h1 : (addr &&& (2 ^ 64 - 8)) / 2 / 2 / 2
        = addr / 2 / 2 / 2 &&& (2 ^ 64 - 8) / 2 / 2 / 2 := by
      rw [Nat.and_div_two, Nat.and_div_two, Nat.and_div_two]
    have h2 : ((2 : Nat) ^ 64 - 8) / 2 / 2 / 2 = 2 ^ 61 - 1 := by decide
    rw [h2, Nat.and_pow_two_sub_one_eq_mod] at h1
    omega
  have hmod : (addr &&& (2 ^ 64 - 8)) % 8 = 0 := by
    have h1 := Nat.and_pow_two_sub_one_eq_mod (addr &&& (2 ^ 64 - 8)) 3
    have h2 : ((2 : Nat) ^ 64 - 8) &&& (2 ^ 3 - 1) = 0 := by decide
    rw [Nat.and_assoc, h2, Nat.and_zero] at h1
    omega
  omega


/-! ## Claims, continued -/

/-- C11 fails as stated: for the textbook header at the even address `0`,
`from32to16 (csum_partial hdr 20 0)` is `0x9e47`, not `0xb861`. -/
theorem csum_partial_ipv4_not_textbook :
    from32to16 ( csum_partial false (bytesAt 0 ipv4_header) 0 20 0) ≠ 0xb861 := by
  rw [fold_csum_partial_even false _ 0 20 0 (by decide) (by decide)]
  decide

/-- C11 (amended): for the textbook IPv4 header stored at an even address,
`from32to16 (csum_partial hdr 20 0)` is `0x9e47`: the one's-complement sum
`0x479e` of the header's 16-bit words with its two bytes in little-endian
order. The textbook checksum `0xb861` is the complement of the byte-swapped
value, which the kernel does not take. -/
theorem csum_partial_ipv4_header (fault : Bool) (mem : Nat → Nat) (buff : Nat)
    (heven : buff % 2 = 0)
    (hbytes : ∀ i, i < 20 → byteAt mem (buff + i) = ipv4_header.getD i 0)
    (hf : tailReadable fault buff 20) :
    from32to16 ( csum_partial fault mem buff 20 0) = 0x9e47
      ∧ 0xffff - (((from32to16 ( csum_partial fault mem buff 20 0) >>> 8) &&& 0xff)
          ||| ((from32to16 ( csum_partial fault mem buff 20 0) &&& 0xff) <<< 8)) = 0xb861 := by
  have hb : ∀ i, i < 20 → byteAt mem (buff + i) = byteAt (bytesAt 0 ipv4_header) (0 + i) := by
    intro i hi
    rw [hbytes i hi, byteAt_bytesAt]
    have : ∀ j, j < 20 → ipv4_header.getD j 0 = ipv4_header.getD j 0 % 256 := by decide
    exact this i hi
  have h : from32to16 ( csum_partial fault mem buff 20 0) = 0x9e47 := by
    rw [fold_csum_partial_even fault mem buff 20 0 heven hf,
      byteSum_congr 2 mem (bytesAt 0 ipv4_header) buff 0 20 hb]
    decide
  rw [h]
  exact ⟨rfl, by decide⟩

theorem csum_partial_ipv4_header_witness :
    (4096 % 2 = 0
        ∧ (∀ i, i < 20 → byteAt (bytesAt 4096 ipv4_header) (4096 + i) = ipv4_header.getD i 0)
        ∧ tailReadable true 4096 20)
      ∧ (from32to16 ( csum_partial true (bytesAt 4096 ipv4_header) 4096 20 0) = 0x9e47
        ∧ 0xffff
            - (((from32to16 ( csum_partial true (bytesAt 4096 ipv4_header) 4096 20 0) >>> 8)
                  &&& 0xff)
              ||| ((from32to16 ( csum_partial true (bytesAt 4096 ipv4_header) 4096 20 0)
                  &&& 0xff) <<< 8)) = 0xb861) :=
  ⟨⟨by decide, by decide, by decide⟩,
    csum_partial_ipv4_header true (bytesAt 4096 ipv4_header) 4096 (by decide) (by decide)
      (by decide)⟩

/-- C12: `add32_with_carry` is the 32-bit end-around-carry addition. For 32-bit
`a`, `b` it returns `a + b` when that is below `2 ^ 32` and `a + b - (2 ^ 32 - 1)`
otherwise; the closing `adcl $0` leaves the carry flag clear; the result is
congruent to `a + b` modulo `2 ^ 32 - 1` and is `0` exactly when `a = b = 0`. -/
theorem add32_with_carry_end_around (a b : Nat) (ha : a < 2 ^ 32) (hb : b < 2 ^ 32) :
    add32_with_carry a b = (if a + b < 2 ^ 32 then a + b else a + b - (2 ^ 32 - 1))
      ∧ (adcl 0 (addl (b % 2 ^ 32) (a % 2 ^ 32)).1 (addl (b % 2 ^ 32) (a % 2 ^ 32)).2).2 = 0
      ∧ add32_with_carry a b % (2 ^ 32 - 1) = (a + b) % (2 ^ 32 - 1)
      ∧ (add32_with_carry a b = 0 ↔ a = 0 ∧ b = 0) := by
  have hc := carry_add (2 ^ 32) (a % 2 ^ 32) (b % 2 ^ 32) width32
    (Nat.mod_lt _ (by norm_num)) (Nat.mod_lt _ (by norm_num))
  have hclose := carry_close (2 ^ 32) _ _ _ width32 hc
  have e : add32_with_carry a b = ocNorm (2 ^ 32 - 1) (a + b) := by
    rw [add32_with_carry_eq, Nat.mod_eq_of_lt ha, Nat.mod_eq_of_lt hb]
  refine ⟨?_, hclose.2, ?_, ?_⟩
  · rw [e]
    unfold ocNorm
    split <;> split <;> omega
  · rw [e, ocNorm_mod]
  · rw [e, ocNorm_eq_zero_iff]
    omega

theorem add32_with_carry_end_around_witness :
    (0xffffffff < 2 ^ 32 ∧ 0xffffffff < 2 ^ 32)
      ∧ (add32_with_carry 0xffffffff 0xffffffff
          = (if 0xffffffff + 0xffffffff < 2 ^ 32 then 0xffffffff + 0xffffffff
              else 0xffffffff + 0xffffffff - (2 ^ 32 - 1))
        ∧ (adcl 0 (addl (0xffffffff % 2 ^ 32) (0xffffffff % 2 ^ 32)).1
            (addl (0xffffffff % 2 ^ 32) (0xffffffff % 2 ^ 32)).2).2 = 0
        ∧ add32_with_carry 0xffffffff 0xffffffff % (2 ^ 32 - 1)
            = (0xffffffff + 0xffffffff) % (2 ^ 32 - 1)
        ∧ (add32_with_carry 0xffffffff 0xffffffff = 0 ↔ 0xffffffff = 0 ∧ 0xffffffff = 0)) :=
  ⟨⟨by norm_num, by norm_num⟩,
    add32_with_carry_end_around 0xffffffff 0xffffffff (by norm_num) (by norm_num)⟩

/-- C13: one application of `from32to16` is a complete fold. For 32-bit `a` the
result fits in 16 bits, is congruent to `a` modulo 65535, is `0` exactly when
`a = 0`, the closing `adcw $0` leaves the carry flag clear, and folding again
changes nothing. -/
theorem from32to16_complete (a : Nat) (ha : a < 2 ^ 32) :
    from32to16 a < 2 ^ 16
      ∧ from32to16 a % 65535 = a % 65535
      ∧ (from32to16 a = 0 ↔ a = 0)
      ∧ (adcw 0 (addw (a % 2 ^ 16) (((a % 2 ^ 32) >>> 16) % 2 ^ 16)).1
          (addw (a % 2 ^ 16) (((a % 2 ^ 32) >>> 16) % 2 ^ 16)).2).2 = 0
      ∧ from32to16 (from32to16 a) = from32to16 a := by
  have hc := carry_add (2 ^ 16) (((a % 2 ^ 32) >>> 16) % 2 ^ 16) (a % 2 ^ 16) (Or.inl rfl)
    (Nat.mod_lt _ (by norm_num)) (Nat.mod_lt _ (by norm_num))
  have hclose := carry_close (2 ^ 16) _ _ _ (Or.inl rfl) hc
  refine ⟨from32to16_lt a, ?_, ?_, hclose.2, ?_⟩
  · rw [from32to16_norm a ha, ocNorm_mod]
  · rw [from32to16_norm a ha, ocNorm_eq_zero_iff]
  · rw [from32to16_norm a ha,
      from32to16_norm _ (Nat.lt_trans (ocNorm16_lt a) (by norm_num)),
      ocNorm_of_le _ _ (ocNorm_le _ _ (by norm_num))]

theorem from32to16_complete_witness :
    0xffff0001 < 2 ^ 32
      ∧ (from32to16 0xffff0001 < 2 ^ 16
        ∧ from32to16 0xffff0001 % 65535 = 0xffff0001 % 65535
        ∧ (from32to16 0xffff0001 = 0 ↔ 0xffff0001 = 0)
        ∧ (adcw 0 (addw (0xffff0001 % 2 ^ 16) (((0xffff0001 % 2 ^ 32) >>> 16) % 2 ^ 16)).1
            (addw (0xffff0001 % 2 ^ 16) (((0xffff0001 % 2 ^ 32) >>> 16) % 2 ^ 16)).2).2 = 0
        ∧ from32to16 (from32to16 0xffff0001) = from32to16 0xffff0001) :=
  ⟨by norm_num, from32to16_complete 0xffff0001 (by norm_num)⟩


/-- C14: in a chain `addq w0; adcq w1; ...; adcq $0` over 64-bit operands the
accumulator is never `2 ^ 64 - 1` while the carry flag is set, so the closing
`adcq $0` leaves the carry flag clear and the result is congruent to the
accumulator plus all operands modulo `2 ^ 64 - 1`. The 8-, 4-, 2- and 1-word
blocks and the tail add of `csum_partial` are such chains. -/
theorem carry_chain_never_drops (acc w0 : Nat) (ws : List Nat) (hacc : acc < 2 ^ 64)
    (hw0 : w0 < 2 ^ 64) (hws : ∀ w, w ∈ ws → w < 2 ^ 64) :
    (∀ n, ¬((adcChain (2 ^ 64) (ws.take n) (addq w0 acc)).1 = 2 ^ 64 - 1
        ∧ (adcChain (2 ^ 64) (ws.take n) (addq w0 acc)).2 = 1))
      ∧ (carryChain (2 ^ 64) acc w0 ws).2 = 0
      ∧ (carryChain (2 ^ 64) acc w0 ws).1 % (2 ^ 64 - 1) = (acc + w0 + ws.sum) % (2 ^ 64 - 1)
      ∧ (∀ mem src, block64 mem src acc
          = (carryChain (2 ^ 64) acc (load64 mem (src + 0 * 8))
              [load64 mem (src + 1 * 8), load64 mem (src + 2 * 8), load64 mem (src + 3 * 8),
               load64 mem (src + 4 * 8), load64 mem (src + 5 * 8), load64 mem (src + 6 * 8),
               load64 mem (src + 7 * 8)]).1)
      ∧ (∀ mem src, block32 mem src acc
          = (carryChain (2 ^ 64) acc (load64 mem (src + 0 * 8))
              [load64 mem (src + 1 * 8), load64 mem (src + 2 * 8), load64 mem (src + 3 * 8)]).1)
      ∧ (∀ mem src, block16 mem src acc
          = (carryChain (2 ^ 64) acc (load64 mem (src + 0 * 8)) [load64 mem (src + 1 * 8)]).1)
      ∧ (∀ mem src, block8 mem src acc
          = (carryChain (2 ^ 64) acc (load64 mem (src + 0 * 8)) []).1)
      ∧ (∀ trail, addTrail trail acc = (carryChain (2 ^ 64) acc trail []).1) := by
  have h := carryChain_eq (2 ^ 64) width64 acc w0 ws hacc hw0 hws
  refine ⟨?_, h.2, ?_, fun _ _ => rfl, fun _ _ => rfl, fun _ _ => rfl, fun _ _ => rfl,
    fun _ => rfl⟩
  · intro n
    have hc := adcChain_carry (2 ^ 64) width64 (ws.take n) _ _
      (carry_add (2 ^ 64) acc w0 width64 hacc hw0)
      (fun w hw => hws w (List.mem_of_mem_take hw))
    exact hc.2.2.1
  · rw [h.1, ocNorm_mod]

theorem carry_chain_never_drops_witness :
    (0xffffffffffffffff < 2 ^ 64 ∧ 0xffffffffffffffff < 2 ^ 64
        ∧ ∀ w, w ∈ [0xffffffffffffffff, 1, 0xffffffffffffffff] → w < 2 ^ 64)
      ∧ ((∀ n, ¬((adcChain (2 ^ 64) ([0xffffffffffffffff, 1, 0xffffffffffffffff].take n)
              (addq 0xffffffffffffffff 0xffffffffffffffff)).1 = 2 ^ 64 - 1
            ∧ (adcChain (2 ^ 64) ([0xffffffffffffffff, 1, 0xffffffffffffffff].take n)
              (addq 0xffffffffffffffff 0xffffffffffffffff)).2 = 1))
        ∧ (carryChain (2 ^ 64) 0xffffffffffffffff 0xffffffffffffffff
            [0xffffffffffffffff, 1, 0xffffffffffffffff]).2 = 0
        ∧ (carryChain (2 ^ 64) 0xffffffffffffffff 0xffffffffffffffff
            [0xffffffffffffffff, 1, 0xffffffffffffffff]).1 % (2 ^ 64 - 1)
          = (0xffffffffffffffff + 0xffffffffffffffff
              + [0xffffffffffffffff, 1, 0xffffffffffffffff].sum) % (2 ^ 64 - 1)) :=
  ⟨⟨by norm_num, by norm_num, by decide⟩,
    (carry_chain_never_drops 0xffffffffffffffff 0xffffffffffffffff
      [0xffffffffffffffff, 1, 0xffffffffffffffff] (by norm_num) (by norm_num)
      (by decide)).1,
    (carry_chain_never_drops 0xffffffffffffffff 0xffffffffffffffff
      [0xffffffffffffffff, 1, 0xffffffffffffffff] (by norm_num) (by norm_num)
      (by decide)).2.1,
    (carry_chain_never_drops 0xffffffffffffffff 0xffffffffffffffff
      [0xffffffffffffffff, 1, 0xffffffffffffffff] (by norm_num) (by norm_num)
      (by decide)).2.2.1⟩

/-- C15: for byte sequences `A`, `B` stored contiguously from an even address
with `len A` even, chaining the partial sum of `A` into the call on `B` gives,
after `from32to16`, the 16-bit checksum of one call over `A ++ B`. -/
theorem csum_partial_even_split (f1 f2 f3 : Bool) (mem : Nat → Nat) (buff la lb : Nat)
    (heven : buff % 2 = 0) (h2 : la % 2 = 0) (hf1 : tailReadable f1 buff (la + lb))
    (hf2 : tailReadable f2 buff la) (hf3 : tailReadable f3 (buff + la) lb) :
    from32to16 ( csum_partial f3 mem (buff + la) lb ( csum_partial f2 mem buff la 0))
      = from32to16 ( csum_partial f1 mem buff (la + lb) 0) :=
  (compose_split2 f1 f2 f3 mem buff la lb heven h2 hf1 hf2 hf3).symm

theorem csum_partial_even_split_witness :
    (16 % 2 = 0 ∧ 6 % 2 = 0 ∧ tailReadable true 16 (6 + 7) ∧ tailReadable true 16 6
        ∧ tailReadable false (16 + 6) 7)
      ∧ from32to16 ( csum_partial false (fun a => a * a) (16 + 6) 7
            ( csum_partial true (fun a => a * a) 16 6 0))
          = from32to16 ( csum_partial true (fun a => a * a) 16 (6 + 7) 0) :=
  ⟨⟨by decide, by decide, by decide, by decide, by decide⟩,
    csum_partial_even_split true true false (fun a => a * a) 16 6 7 (by decide) (by decide)
      (by decide) (by decide) (by decide)⟩


/-- C16: for a 40-byte buffer at an even address the `add`/`adc` kernels return
exactly the value of the generic kernel: `csum_partial41` is one chain over the
five words, `csum_partial44` sums words 0..2 in one chain and the seed, words 3,
4 and that sum in a second one, `csum_partial45` sums words 0..3 and then the
seed, word 4 and that sum. -/
theorem csum_partial_adc_kernels (fault : Bool) (mem : Nat → Nat) (buff s : Nat)
    (heven : buff % 2 = 0) :
    (csum_partial41 mem buff 40 s = csum_partial fault mem buff 40 s
        ∧ csum_partial44 mem buff 40 s = csum_partial fault mem buff 40 s
        ∧ csum_partial45 mem buff 40 s = csum_partial fault mem buff 40 s)
      ∧ csum_partial41 mem buff 40 s
          = add32_with_carry
              ((carryChain (2 ^ 64) (s % 2 ^ 32) (load64 mem (buff + 0 * 8))
                [load64 mem (buff + 1 * 8), load64 mem (buff + 2 * 8),
                 load64 mem (buff + 3 * 8), load64 mem (buff + 4 * 8)]).1 >>> 32)
              ((carryChain (2 ^ 64) (s % 2 ^ 32) (load64 mem (buff + 0 * 8))
                [load64 mem (buff + 1 * 8), load64 mem (buff + 2 * 8),
                 load64 mem (buff + 3 * 8), load64 mem (buff + 4 * 8)]).1 &&& 0xffffffff)
      ∧ csum_partial44 mem buff 40 s
          = add32_with_carry
              ((carryChain (2 ^ 64) (s % 2 ^ 32) (load64 mem (buff + 3 * 8))
                [load64 mem (buff + 4 * 8),
                 (carryChain (2 ^ 64) (load64 mem (buff + 0 * 8)) (load64 mem (buff + 1 * 8))
                   [load64 mem (buff + 2 * 8)]).1]).1 >>> 32)
              ((carryChain (2 ^ 64) (s % 2 ^ 32) (load64 mem (buff + 3 * 8))
                [load64 mem (buff + 4 * 8),
                 (carryChain (2 ^ 64) (load64 mem (buff + 0 * 8)) (load64 mem (buff + 1 * 8))
                   [load64 mem (buff + 2 * 8)]).1]).1 &&& 0xffffffff)
      ∧ csum_partial45 mem buff 40 s
          = add32_with_carry
              ((carryChain (2 ^ 64) (s % 2 ^ 32) (load64 mem (buff + 4 * 8))
                [(carryChain (2 ^ 64) (load64 mem (buff + 0 * 8)) (load64 mem (buff + 1 * 8))
                   [load64 mem (buff + 2 * 8), load64 mem (buff + 3 * 8)]).1]).1 >>> 32)
              ((carryChain (2 ^ 64) (s % 2 ^ 32) (load64 mem (buff + 4 * 8))
                [(carryChain (2 ^ 64) (load64 mem (buff + 0 * 8)) (load64 mem (buff + 1 * 8))
                   [load64 mem (buff + 2 * 8), load64 mem (buff + 3 * 8)]).1]).1
                &&& 0xffffffff) := by
  have ht : fault = true → tailInWord buff 40 := by
    intro _
    unfold tailInWord
    omega
  refine ⟨?_, rfl, rfl, rfl⟩
  rw [csum_partial_even fault mem buff 40 s heven ht, csum_partial41_eq, csum_partial44_eq,
    csum_partial45_eq]
  exact ⟨rfl, rfl, rfl⟩

theorem csum_partial_adc_kernels_witness :
    8 % 2 = 0
      ∧ (csum_partial41 (fun a => 251 * a) 8 40 0xfffffffe
          = csum_partial true (fun a => 251 * a) 8 40 0xfffffffe
        ∧ csum_partial44 (fun a => 251 * a) 8 40 0xfffffffe
          = csum_partial true (fun a => 251 * a) 8 40 0xfffffffe
        ∧ csum_partial45 (fun a => 251 * a) 8 40 0xfffffffe
          = csum_partial true (fun a => 251 * a) 8 40 0xfffffffe) :=
  ⟨by decide, (csum_partial_adc_kernels true (fun a => 251 * a) 8 0xfffffffe (by decide)).1⟩


/-- C17: for a 40-byte buffer at an even address the ADX kernels
`csum_partial42` and `csum_partial43` return exactly the value of the generic
kernel. Each runs one chain on the carry flag (`adcx`) and one on the overflow
flag (`adox`), both flags cleared by `xorq`; the closing `adcx %r9` and
`adox %r9` leave their flag clear, so neither chain drops a carry. -/
theorem csum_partial_adx_kernels (fault : Bool) (mem : Nat → Nat) (buff s : Nat)
    (heven : buff % 2 = 0) :
    (csum_partial42 mem buff 40 s = csum_partial fault mem buff 40 s
        ∧ csum_partial43 mem buff 40 s = csum_partial fault mem buff 40 s)
      ∧ (csum_partial42 mem buff 40 s
          = add32_with_carry
              ((carryChain (2 ^ 64) (s % 2 ^ 32) (load64 mem (buff + 3 * 8))
                [load64 mem (buff + 4 * 8),
                 (carryChain (2 ^ 64) (load64 mem (buff + 0 * 8)) (load64 mem (buff + 1 * 8))
                   [load64 mem (buff + 2 * 8)]).1]).1 >>> 32)
              ((carryChain (2 ^ 64) (s % 2 ^ 32) (load64 mem (buff + 3 * 8))
                [load64 mem (buff + 4 * 8),
                 (carryChain (2 ^ 64) (load64 mem (buff + 0 * 8)) (load64 mem (buff + 1 * 8))
                   [load64 mem (buff + 2 * 8)]).1]).1 &&& 0xffffffff)
        ∧ (carryChain (2 ^ 64) (load64 mem (buff + 0 * 8)) (load64 mem (buff + 1 * 8))
            [load64 mem (buff + 2 * 8)]).2 = 0
        ∧ (carryChain (2 ^ 64) (s % 2 ^ 32) (load64 mem (buff + 3 * 8))
            [load64 mem (buff + 4 * 8),
             (carryChain (2 ^ 64) (load64 mem (buff + 0 * 8)) (load64 mem (buff + 1 * 8))
               [load64 mem (buff + 2 * 8)]).1]).2 = 0)
      ∧ (csum_partial43 mem buff 40 s
          = add32_with_carry
              ((carryChain (2 ^ 64) (s % 2 ^ 32) (load64 mem (buff + 4 * 8))
                [(carryChain (2 ^ 64) (load64 mem (buff + 0 * 8)) (load64 mem (buff + 1 * 8))
                   [load64 mem (buff + 2 * 8), load64 mem (buff + 3 * 8)]).1]).1 >>> 32)
              ((carryChain (2 ^ 64) (s % 2 ^ 32) (load64 mem (buff + 4 * 8))
                [(carryChain (2 ^ 64) (load64 mem (buff + 0 * 8)) (load64 mem (buff + 1 * 8))
                   [load64 mem (buff + 2 * 8), load64 mem (buff + 3 * 8)]).1]).1
                &&& 0xffffffff)
        ∧ (carryChain (2 ^ 64) (load64 mem (buff + 0 * 8)) (load64 mem (buff + 1 * 8))
            [load64 mem (buff + 2 * 8), load64 mem (buff + 3 * 8)]).2 = 0
        ∧ (carryChain (2 ^ 64) (s % 2 ^ 32) (load64 mem (buff + 4 * 8))
            [(carryChain (2 ^ 64) (load64 mem (buff + 0 * 8)) (load64 mem (buff + 1 * 8))
               [load64 mem (buff + 2 * 8), load64 mem (buff + 3 * 8)]).1]).2 = 0) := by
  have ht : fault = true → tailInWord buff 40 := by
    intro _
    unfold tailInWord
    omega
  have hs : s % 2 ^ 32 < 2 ^ 64 := by omega
  have l0 := load64_lt mem (buff + 0 * 8)
  have l1 := load64_lt mem (buff + 1 * 8)
  have l2 := load64_lt mem (buff + 2 * 8)
  have l3 := load64_lt mem (buff + 3 * 8)
  have l4 := load64_lt mem (buff + 4 * 8)
  have ca := carryChain_eq (2 ^ 64) width64 _ _ [load64 mem (buff + 2 * 8)] l0 l1
    (by intro w hw; simp only [List.mem_singleton] at hw; subst hw; exact l2)
  have cb := carryChain_eq (2 ^ 64) width64 _ _
    [load64 mem (buff + 2 * 8), load64 mem (buff + 3 * 8)] l0 l1
    (by
      intro w hw
      simp only [List.mem_cons, List.mem_singleton, List.not_mem_nil, or_false] at hw
      rcases hw with rfl | rfl
      · exact l2
      · exact l3)
  have la : (carryChain (2 ^ 64) (load64 mem (buff + 0 * 8)) (load64 mem (buff + 1 * 8))
      [load64 mem (buff + 2 * 8)]).1 < 2 ^ 64 := by
    rw [ca.1]
    exact ocNorm64_lt _
  have lb : (carryChain (2 ^ 64) (load64 mem (buff + 0 * 8)) (load64 mem (buff + 1 * 8))
      [load64 mem (buff + 2 * 8), load64 mem (buff + 3 * 8)]).1 < 2 ^ 64 := by
    rw [cb.1]
    exact ocNorm64_lt _
  have oa := carryChain_eq (2 ^ 64) width64 (s % 2 ^ 32) (load64 mem (buff + 3 * 8))
    [load64 mem (buff + 4 * 8),
      (carryChain (2 ^ 64) (load64 mem (buff + 0 * 8)) (load64 mem (buff + 1 * 8))
        [load64 mem (buff + 2 * 8)]).1] hs l3
    (by
      intro w hw
      simp only [List.mem_cons, List.mem_singleton, List.not_mem_nil, or_false] at hw
      rcases hw with rfl | rfl
      · exact l4
      · exact la)
  have ob := carryChain_eq (2 ^ 64) width64 (s % 2 ^ 32) (load64 mem (buff + 4 * 8))
    [(carryChain (2 ^ 64) (load64 mem (buff + 0 * 8)) (load64 mem (buff + 1 * 8))
        [load64 mem (buff + 2 * 8), load64 mem (buff + 3 * 8)]).1] hs l4
    (by intro w hw; simp only [List.mem_singleton] at hw; subst hw; exact lb)
  refine ⟨?_, ⟨rfl, ca.2, oa.2⟩, ⟨rfl, cb.2, ob.2⟩⟩
  rw [csum_partial_even fault mem buff 40 s heven ht, csum_partial42_eq, csum_partial43_eq]
  exact ⟨rfl, rfl⟩

theorem csum_partial_adx_kernels_witness :
    1024 % 2 = 0
      ∧ (csum_partial42 (fun a => 255 - a) 1024 40 0xffffffff
          = csum_partial false (fun a => 255 - a) 1024 40 0xffffffff
        ∧ csum_partial43 (fun a => 255 - a) 1024 40 0xffffffff
          = csum_partial false (fun a => 255 - a) 1024 40 0xffffffff) :=
  ⟨by decide, (csum_partial_adx_kernels false (fun a => 255 - a) 1024 0xffffffff (by decide)).1⟩


/-- C18: for a 40-byte buffer at an even address `csum_partial47` returns
exactly the 32-bit value of the generic kernel. It sums the ten 32-bit words in
three 32-bit end-around-carry chains (`d0, d4, d5`), (`d1, d6, d7`),
(`d2, d8, d3`) and merges them with `d9` and the seed in a fourth chain; no
chain leaves a carry behind. -/
theorem csum_partial47_agrees (fault : Bool) (mem : Nat → Nat) (buff s : Nat)
    (heven : buff % 2 = 0) :
    csum_partial47 mem buff 40 s = csum_partial fault mem buff 40 s
      ∧ csum_partial47 mem buff 40 s
          = (carryChain (2 ^ 32) (s % 2 ^ 32) (load32 mem (buff + 9 * 4))
              [(carryChain (2 ^ 32) (load32 mem (buff + 0 * 4)) (load32 mem (buff + 4 * 4))
                 [load32 mem (buff + 5 * 4)]).1,
               (carryChain (2 ^ 32) (load32 mem (buff + 1 * 4)) (load32 mem (buff + 6 * 4))
                 [load32 mem (buff + 7 * 4)]).1,
               (carryChain (2 ^ 32) (load32 mem (buff + 2 * 4)) (load32 mem (buff + 8 * 4))
                 [load32 mem (buff + 3 * 4)]).1]).1
      ∧ (carryChain (2 ^ 32) (load32 mem (buff + 0 * 4)) (load32 mem (buff + 4 * 4))
          [load32 mem (buff + 5 * 4)]).2 = 0
      ∧ (carryChain (2 ^ 32) (load32 mem (buff + 1 * 4)) (load32 mem (buff + 6 * 4))
          [load32 mem (buff + 7 * 4)]).2 = 0
      ∧ (carryChain (2 ^ 32) (load32 mem (buff + 2 * 4)) (load32 mem (buff + 8 * 4))
          [load32 mem (buff + 3 * 4)]).2 = 0
      ∧ (carryChain (2 ^ 32) (s % 2 ^ 32) (load32 mem (buff + 9 * 4))
          [(carryChain (2 ^ 32) (load32 mem (buff + 0 * 4)) (load32 mem (buff + 4 * 4))
             [load32 mem (buff + 5 * 4)]).1,
           (carryChain (2 ^ 32) (load32 mem (buff + 1 * 4)) (load32 mem (buff + 6 * 4))
             [load32 mem (buff + 7 * 4)]).1,
           (carryChain (2 ^ 32) (load32 mem (buff + 2 * 4)) (load32 mem (buff + 8 * 4))
             [load32 mem (buff + 3 * 4)]).1]).2 = 0 := by
  have ht : fault = true → tailInWord buff 40 := by
    intro _
    unfold tailInWord
    omega
  have hs : s % 2 ^ 32 < 2 ^ 32 := Nat.mod_lt _ (by norm_num)
  have one : ∀ x : Nat, x < 2 ^ 32 → ∀ w, w ∈ [x] → w < 2 ^ 32 := by
    intro x hx w hw
    simp only [List.mem_singleton] at hw
    subst hw
    exact hx
  have ca := carryChain_eq (2 ^ 32) width32 _ _ [load32 mem (buff + 5 * 4)]
    (load32_lt mem (buff + 0 * 4)) (load32_lt mem (buff + 4 * 4)) (one _ (load32_lt _ _))
  have cb := carryChain_eq (2 ^ 32) width32 _ _ [load32 mem (buff + 7 * 4)]
    (load32_lt mem (buff + 1 * 4)) (load32_lt mem (buff + 6 * 4)) (one _ (load32_lt _ _))
  have cc := carryChain_eq (2 ^ 32) width32 _ _ [load32 mem (buff + 3 * 4)]
    (load32_lt mem (buff + 2 * 4)) (load32_lt mem (buff + 8 * 4)) (one _ (load32_lt _ _))
  have cd := carryChain_eq (2 ^ 32) width32 (s % 2 ^ 32) (load32 mem (buff + 9 * 4))
    [(carryChain (2 ^ 32) (load32 mem (buff + 0 * 4)) (load32 mem (buff + 4 * 4))
        [load32 mem (buff + 5 * 4)]).1,
      (carryChain (2 ^ 32) (load32 mem (buff + 1 * 4)) (load32 mem (buff + 6 * 4))
        [load32 mem (buff + 7 * 4)]).1,
      (carryChain (2 ^ 32) (load32 mem (buff + 2 * 4)) (load32 mem (buff + 8 * 4))
        [load32 mem (buff + 3 * 4)]).1] hs (load32_lt mem (buff + 9 * 4))
    (by
      intro w hw
      simp only [List.mem_cons, List.mem_singleton, List.not_mem_nil, or_false] at hw
      rcases hw with rfl | rfl | rfl
      · rw [ca.1]; exact ocNorm32_lt _
      · rw [cb.1]; exact ocNorm32_lt _
      · rw [cc.1]; exact ocNorm32_lt _)
  refine ⟨?_, rfl, ca.2, cb.2, cc.2, cd.2⟩
  rw [csum_partial_even fault mem buff 40 s heven ht, csum_partial47_eq]

theorem csum_partial47_agrees_witness :
    64 % 2 = 0
      ∧ csum_partial47 (fun a => 255 - a % 3) 64 40 0xfffffff0
          = csum_partial false (fun a => 255 - a % 3) 64 40 0xfffffff0 :=
  ⟨by decide, (csum_partial47_agrees false (fun a => 255 - a % 3) 64 0xfffffff0 (by decide)).1⟩

/-- C19: `csum_partial46` ("Assume zero") ignores its initial sum: for a 40-byte
buffer at an even address it returns `csum_partial buf 40 0` whatever `s` is. -/
theorem csum_partial46_assumes_zero (fault : Bool) (mem : Nat → Nat) (buff s : Nat)
    (heven : buff % 2 = 0) :
    csum_partial46 mem buff 40 s = csum_partial fault mem buff 40 0
      ∧ ∀ s2, csum_partial46 mem buff 40 s = csum_partial46 mem buff 40 s2 := by
  have ht : fault = true → tailInWord buff 40 := by
    intro _
    unfold tailInWord
    omega
  refine ⟨?_, fun _ => rfl⟩
  rw [csum_partial_even fault mem buff 40 0 heven ht, csum_partial46_eq]
  simp

theorem csum_partial46_assumes_zero_witness :
    2 % 2 = 0
      ∧ (csum_partial46 (fun a => a + 1) 2 40 0xdeadbeef
          = csum_partial true (fun a => a + 1) 2 40 0
        ∧ ∀ s2, csum_partial46 (fun a => a + 1) 2 40 0xdeadbeef
          = csum_partial46 (fun a => a + 1) 2 40 s2) :=
  ⟨by decide, csum_partial46_assumes_zero true (fun a => a + 1) 2 0xdeadbeef (by decide)⟩

/-- C20: on the fixup path, for a 64-bit address `addr` with `k = addr & 7`,
`load_unaligned_zeropad` returns the aligned word at `addr & -8` shifted right
by `8 * k` bits: the bytes at `addr .. addr | 7` in little-endian order with the
top `8 * k` bits zero. For a remainder `r` with `1 ≤ r ≤ 8 - k`, masking it to
`r` bytes as `csum_partial` does gives the same word as masking the direct
8-byte load at `addr`. -/
theorem fixup_zero_padded (mem : Nat → Nat) (addr : Nat) (haddr : addr < 2 ^ 64) :
    load_unaligned_zeropad_fixup mem addr
        = load64 mem (addr &&& (2 ^ 64 - 8)) >>> (8 * (addr &&& 7))
      ∧ load_unaligned_zeropad_fixup mem addr
        = ∑ i ∈ Finset.range (8 - (addr &&& 7)), byteAt mem (addr + i) * 256 ^ i
      ∧ load_unaligned_zeropad_fixup mem addr < 2 ^ (8 * (8 - (addr &&& 7)))
      ∧ ∀ len, len &&& 7 ≠ 0 → (len &&& 7) ≤ 8 - (addr &&& 7) →
          trailWord true mem addr len = trailWord false mem addr len := by
  have hk : addr % 8 < 8 := Nat.mod_lt _ (by norm_num)
  rw [and_neg8 addr haddr, and_7]
  refine ⟨?_, ?_, ?_, ?_⟩
  · have hcl : (((addr % 2 ^ 32) &&& 7) <<< 3) % 2 ^ 32 = 8 * (addr % 8) := by
      rw [and_7, Nat.shiftLeft_eq]
      omega
    unfold load_unaligned_zeropad_fixup
    simp only [hcl]
  · rw [fixup_eq, byteSum8_eq_sum _ _ _ (by omega)]
  · rw [fixup_eq, Nat.pow_mul]
    exact byteSum_lt mem addr (8 - addr % 8) (by omega)
  · intro len hr hle
    rw [and_7] at hr hle
    rw [trailWord_eq true mem addr len hr (fun _ => by omega),
      trailWord_eq false mem addr len hr (fun h => by cases h)]

theorem fixup_zero_padded_witness :
    0x7ffffffffffd < 2 ^ 64
      ∧ (load_unaligned_zeropad_fixup (fun a => a) 0x7ffffffffffd
          = load64 (fun a => a) (0x7ffffffffffd &&& (2 ^ 64 - 8)) >>> (8 * (0x7ffffffffffd &&& 7))
        ∧ load_unaligned_zeropad_fixup (fun a => a) 0x7ffffffffffd
          = ∑ i ∈ Finset.range (8 - (0x7ffffffffffd &&& 7)),
              byteAt (fun a => a) (0x7ffffffffffd + i) * 256 ^ i
        ∧ load_unaligned_zeropad_fixup (fun a => a) 0x7ffffffffffd
          < 2 ^ (8 * (8 - (0x7ffffffffffd &&& 7)))
        ∧ ∀ len, len &&& 7 ≠ 0 → (len &&& 7) ≤ 8 - (0x7ffffffffffd &&& 7) →
            trailWord true (fun a => a) 0x7ffffffffffd len
              = trailWord false (fun a => a) 0x7ffffffffffd len) :=
  ⟨by norm_num, fixup_zero_padded (fun a => a) 0x7ffffffffffd (by norm_num)⟩

end Csum
